import Mathlib

/-!
# A shallow embedding of cachemachine (lsst-sqre/cachemachine)

This file embeds, in Lean 4, the parts of the cachemachine sources that the
verified properties below are about:

* `src/cachemachine/rubintag.py` — tag classification (`RubinPartialTag.parse_tag`),
  comparison (`RubinPartialTag.compare`), alias handling (`RubinTag.from_tag`) and
  the tag/digest maps (`RubinHashCache.from_cache`);
* `src/cachemachine/rubintagfuncs.py` — the functional variant of the tag parser
  (`parse_tag`, with its lower-case and alias pre-checks);
* `src/cachemachine/cachemachine.py` — the node-cache intersection
  (`CacheMachine.inspect_node_caches`) and the per-tick pull orchestration
  (`CacheMachine.do_work` / `caching` / `start_caching`);
* `src/cachemachine/cachechecker.py` — the alternative intersection path
  (`CacheChecker.check`);
* `src/cachemachine/cachemachinemanager.py` — the manager of the per-target
  loops (`create` / `release`).

Modelling conventions:

* Python strings are Lean `String`s; character-level operations are modelled at
  the ASCII level (`str.lower`, `str.title`, `\d`, `\w` are mapped to their
  ASCII meaning; the tags and image references this program handles are ASCII).
* Python `dict`s (which iterate in insertion order) are modelled as
  insertion-ordered association lists, and Python `set`s as lists without
  duplicates, specified only up to membership.
* Operations that can raise are embedded in `Except`; an exception a caller
  catches is modelled by matching on the `Except` value.
* The regular expressions of the tag grammar are anchored, first-match-wins
  patterns whose groups are digit runs separated by fixed literals, so each
  pattern has a deterministic maximal-munch reading; the matchers below
  implement exactly that reading (newline corner cases of Python's `.`/`$`
  are not modelled: tags are newline-free).
-/

namespace Cachemachine

/-! ## Python string primitives -/

/-- Python `<` on strings: lexicographic comparison by code point. -/
def pyStrLtAux : List Char → List Char → Bool
  | [], [] => false
  | [], _ :: _ => true
  | _ :: _, [] => false
  | a :: as, b :: bs =>
    if a.val < b.val then true
    else if b.val < a.val then false
    else pyStrLtAux as bs

def pyStrLt (a b : String) : Bool :=
  pyStrLtAux a.data b.data

/-- Python `str.split(sep)` for a one-character separator (the only uses in the
source split on `"@"`, `":"` and `"."`). -/
def pySplitAux (sep : Char) : List Char → List (List Char)
  | [] => [[]]
  | c :: cs =>
    if c = sep then [] :: pySplitAux sep cs
    else
      match pySplitAux sep cs with
      | [] => [[c]]
      | p :: ps => (c :: p) :: ps

def pySplit1 (sep : Char) (s : String) : List String :=
  (pySplitAux sep s.data).map String.mk

/-- Python `pat in s` (substring containment) for a non-empty pattern. -/
def pyInAux (pat : List Char) : List Char → Bool
  | [] => pat.isEmpty
  | c :: rest => pat.isPrefixOf (c :: rest) || pyInAux pat rest

def pyIn (pat s : String) : Bool :=
  pyInAux pat.data s.data

/-- Python `str.lower()` (ASCII model). -/
def pyLower (s : String) : String :=
  String.mk (s.data.map Char.toLower)

/-- Python `str.title()` (ASCII model): the first cased character of every
maximal run of letters is upper-cased and the rest of the run lower-cased. -/
def pyTitleAux : Bool → List Char → List Char
  | _, [] => []
  | prevCased, c :: cs =>
    if c.isAlpha then
      (if prevCased then c.toLower else c.toUpper) :: pyTitleAux true cs
    else
      c :: pyTitleAux false cs

def pyTitle (s : String) : String :=
  String.mk (pyTitleAux false s.data)

/-- Python `s[2:]`. -/
def pyDrop2 (s : String) : String :=
  String.mk (s.data.drop 2)

def digitsToNat (cs : List Char) : Nat :=
  cs.foldl (fun n c => n * 10 + (c.toNat - '0'.toNat)) 0

/-- Python `int(s)` restricted to the strings this program converts (regex
digit groups): succeeds exactly on non-empty all-digit strings. -/
def pyInt? (s : String) : Option Int :=
  if s.data ≠ [] ∧ s.data.all Char.isDigit then some (digitsToNat s.data) else none

/-- Python `int(float(s))` restricted to the strings this program converts
(digit runs, or `digits.digits` cycle groups): truncates at the dot. -/
def pyIntOfFloat? (s : String) : Option Int :=
  match pySplit1 '.' s with
  | [a] => pyInt? a
  | [a, b] => if b.data ≠ [] ∧ b.data.all Char.isDigit then pyInt? a else none
  | _ => none

/-- Python f-string interpolation of an optional string (`None` prints as
`"None"`). -/
def optStr : Option String → String
  | none => "None"
  | some s => s

/-- Python f-string interpolation of an optional int. -/
def optIntStr : Option Int → String
  | none => "None"
  | some i => toString i

/-- Python truthiness of an optional string (`if pre:`,
`if repository and image_hash:`): present and non-empty. -/
def truthy : Option String → Bool
  | none => false
  | some s => s ≠ ""

/-! ## Tag data model (`rubintag.py` / `rubintagtypes.py`) -/

/-- `RubinTagType` of `rubintag.py` / `rubintagtypes.py`. -/
inductive RubinTagType where
  | DAILY
  | WEEKLY
  | RELEASE
  | RELEASE_CANDIDATE
  | EXPERIMENTAL
  | ALIAS
  | UNKNOWN
deriving DecidableEq, Repr

/-- `RubinTagType.name` (the Python `Enum` member name). -/
def RubinTagType.name : RubinTagType → String
  | .DAILY => "DAILY"
  | .WEEKLY => "WEEKLY"
  | .RELEASE => "RELEASE"
  | .RELEASE_CANDIDATE => "RELEASE_CANDIDATE"
  | .EXPERIMENTAL => "EXPERIMENTAL"
  | .ALIAS => "ALIAS"
  | .UNKNOWN => "UNKNOWN"

def DOCKER_DEFAULT_TAG : String := "latest"

/-- `semver.VersionInfo` as used by the source (build metadata carried but
ignored by comparison). -/
structure VersionInfo where
  major : Int
  minor : Int
  patch : Int
  prerelease : Option String
  build : Option String
deriving DecidableEq, Repr

/-- `VersionInfo(...)` raises `TypeError` when a required numeric field is
`None`; the source constructs versions inside `try/except TypeError` and falls
back to `None`, which this smart constructor models. -/
def mkVersionInfo? (major minor patch : Option Int) (pre build : Option String) :
    Option VersionInfo :=
  match major, minor, patch with
  | some ma, some mi, some pa => some ⟨ma, mi, pa, pre, build⟩
  | _, _, _ => none

def cmpI (x y : Int) : Int :=
  if x < y then -1 else if y < x then 1 else 0

def isNumericIdent (s : String) : Bool :=
  s.data ≠ [] && s.data.all Char.isDigit

/-- semver precedence on one dot-separated identifier (model of the `semver`
package): numeric identifiers compare numerically and sort before
alphanumeric ones; alphanumeric identifiers compare lexically. -/
def identCmp (x y : String) : Int :=
  if isNumericIdent x && isNumericIdent y then
    cmpI (digitsToNat x.data) (digitsToNat y.data)
  else if isNumericIdent x then -1
  else if isNumericIdent y then 1
  else if x = y then 0
  else if pyStrLt x y then -1
  else 1

def identsCmp : List String → List String → Int
  | [], [] => 0
  | [], _ :: _ => -1
  | _ :: _, [] => 1
  | x :: xs, y :: ys =>
    let c := identCmp x y
    if c = 0 then identsCmp xs ys else c

/-- semver prerelease comparison: absence of a prerelease sorts higher. -/
def preCmp : Option String → Option String → Int
  | none, none => 0
  | none, some _ => 1
  | some _, none => -1
  | some p, some q => identsCmp (pySplit1 '.' p) (pySplit1 '.' q)

/-- `semver.VersionInfo.compare` (build metadata ignored). -/
def VersionInfo.compare (a b : VersionInfo) : Int :=
  let c := cmpI a.major b.major
  if c ≠ 0 then c else
  let c := cmpI a.minor b.minor
  if c ≠ 0 then c else
  let c := cmpI a.patch b.patch
  if c ≠ 0 then c else
  preCmp a.prerelease b.prerelease

/-- `RubinPartialTag` of `rubintag.py`. -/
structure RubinPartialTag where
  tag : String
  image_type : RubinTagType
  display_name : String
  semantic_version : Option VersionInfo
  cycle : Option Int
deriving DecidableEq, Repr

/-- Python exceptions that can escape the embedded functions. `recursionError`
is the embedding's recursion-depth bound on the `parse_tag` self-recursion; it
is proved unreachable (`parseTagGo_total`). -/
inductive PyErr where
  | valueError : String → PyErr
  | recursionError : PyErr
deriving DecidableEq, Repr

end Cachemachine

namespace Cachemachine

/-! ## The tag grammar (`TAG` / `TAGTYPE_REGEXPS` of `rubintag.py` and
`rubintagfuncs.py`)

Every pattern in the table is a sequence of fixed literals and greedy digit
groups (plus a trailing free-form `rest` group), anchored at both ends, so the
Python regex engine matches it deterministically: a `\d+` group always takes
the maximal digit run (the following literal is never a digit), and the only
alternation, `(?P<ctag>c|csal)`, tries `c` first and falls back to `csal`.
The matchers below implement exactly that. -/

/-- `match.groupdict()`: one optional entry per named group of the tag
patterns. A group that is not part of the matched pattern is `none`. -/
structure Groups where
  major : Option String
  minor : Option String
  patch : Option String
  pre : Option String
  year : Option String
  week : Option String
  month : Option String
  day : Option String
  ctag : Option String
  cycle : Option String
  cbuild : Option String
  rest : Option String
deriving DecidableEq, Repr

def Groups.empty : Groups :=
  ⟨none, none, none, none, none, none, none, none, none, none, none, none⟩

/-- A greedy `\d+` group: the maximal non-empty digit run. -/
def takeDigits (cs : List Char) : Option (String × List Char) :=
  let ds := cs.takeWhile Char.isDigit
  if ds.isEmpty then none else some (String.mk ds, cs.dropWhile Char.isDigit)

/-- A literal character of the pattern. -/
def lit (c : Char) : List Char → Option (List Char)
  | [] => none
  | d :: rest => if d = c then some rest else none

/-- `r(?P<major>\d+)_(?P<minor>\d+)_(?P<patch>\d+)`  (`TAG["release"]`). -/
def releaseCore (cs : List Char) : Option (String × String × String × List Char) := do
  let cs ← lit 'r' cs
  let (ma, cs) ← takeDigits cs
  let cs ← lit '_' cs
  let (mi, cs) ← takeDigits cs
  let cs ← lit '_' cs
  let (pa, cs) ← takeDigits cs
  pure (ma, mi, pa, cs)

/-- `r(?P<major>\d+)_(?P<minor>\d+)_(?P<patch>\d+)_rc(?P<pre>\d+)`  (`TAG["rc"]`). -/
def rcCore (cs : List Char) : Option (String × String × String × String × List Char) := do
  let (ma, mi, pa, cs) ← releaseCore cs
  let cs ← lit '_' cs
  let cs ← lit 'r' cs
  let cs ← lit 'c' cs
  let (pre, cs) ← takeDigits cs
  pure (ma, mi, pa, pre, cs)

/-- `w_(?P<year>\d+)_(?P<week>\d+)`  (`TAG["weekly"]`). -/
def weeklyCore (cs : List Char) : Option (String × String × List Char) := do
  let cs ← lit 'w' cs
  let cs ← lit '_' cs
  let (y, cs) ← takeDigits cs
  let cs ← lit '_' cs
  let (w, cs) ← takeDigits cs
  pure (y, w, cs)

/-- `d_(?P<year>\d+)_(?P<month>\d+)_(?P<day>\d+)`  (`TAG["daily"]`). -/
def dailyCore (cs : List Char) : Option (String × String × String × List Char) := do
  let cs ← lit 'd' cs
  let cs ← lit '_' cs
  let (y, cs) ← takeDigits cs
  let cs ← lit '_' cs
  let (m, cs) ← takeDigits cs
  let cs ← lit '_' cs
  let (d, cs) ← takeDigits cs
  pure (y, m, d, cs)

/-- `_(?P<ctag>c|csal)(?P<cycle>\d+)\.(?P<cbuild>\d+)`  (`TAG["cycle"]` of
`rubintag.py`).  The alternation tries `c` first; if no digit run follows the
`c`, the engine backtracks and tries `csal`. -/
def cyclePartA (cs : List Char) : Option (String × String × String × List Char) := do
  let cs ← lit '_' cs
  let cs ← lit 'c' cs
  match takeDigits cs with
  | some (cy, cs1) => do
    let cs2 ← lit '.' cs1
    let (cb, cs3) ← takeDigits cs2
    pure ("c", cy, cb, cs3)
  | none =>
    match cs with
    | 's' :: 'a' :: 'l' :: cs1 => do
      let (cy, cs2) ← takeDigits cs1
      let cs3 ← lit '.' cs2
      let (cb, cs4) ← takeDigits cs3
      pure ("csal", cy, cb, cs4)
    | _ => none

/-- `_(?P<ctag>c|csal)(?P<cycle>\d+\.\d+)`  (`TAG["cycle"]` of
`rubintagfuncs.py`): same shape, but the group keeps the dot. -/
def cyclePartB (cs : List Char) : Option (String × String × List Char) := do
  let (ct, cy, cb, cs) ← cyclePartA cs
  pure (ct, cy ++ "." ++ cb, cs)

/-- `_(?P<rest>.*)$`  (`TAG["rest"]`): a literal underscore, then everything
up to the end of the tag. -/
def restPart (cs : List Char) : Option String := do
  let cs ← lit '_' cs
  pure (String.mk cs)

/-- The trailing `$` of a pattern without further groups. -/
def atEnd (cs : List Char) : Option Unit :=
  if cs.isEmpty then some () else none

/-! The eighteen table entries.  Names follow the regex comment in the source
(e.g. `r23_0_0_rc1_c0020.001_20210513`).  `A` marks the `rubintag.py` cycle
group shape, `B` the `rubintagfuncs.py` one. -/

def matchRcCycleRestA (t : String) : Option Groups := do
  let (ma, mi, pa, pre, cs) ← rcCore t.data
  let (ct, cy, cb, cs) ← cyclePartA cs
  let r ← restPart cs
  pure { Groups.empty with
         major := some ma
         minor := some mi
         patch := some pa
         pre := some pre
         ctag := some ct
         cycle := some cy
         cbuild := some cb
         rest := some r }

def matchRcCycleA (t : String) : Option Groups := do
  let (ma, mi, pa, pre, cs) ← rcCore t.data
  let (ct, cy, cb, cs) ← cyclePartA cs
  let _ ← atEnd cs
  pure { Groups.empty with
         major := some ma
         minor := some mi
         patch := some pa
         pre := some pre
         ctag := some ct
         cycle := some cy
         cbuild := some cb }

def matchRcRest (t : String) : Option Groups := do
  let (ma, mi, pa, pre, cs) ← rcCore t.data
  let r ← restPart cs
  pure { Groups.empty with
         major := some ma
         minor := some mi
         patch := some pa
         pre := some pre
         rest := some r }

def matchRc (t : String) : Option Groups := do
  let (ma, mi, pa, pre, cs) ← rcCore t.data
  let _ ← atEnd cs
  pure { Groups.empty with
         major := some ma
         minor := some mi
         patch := some pa
         pre := some pre }

def matchReleaseCycleRestA (t : String) : Option Groups := do
  let (ma, mi, pa, cs) ← releaseCore t.data
  let (ct, cy, cb, cs) ← cyclePartA cs
  let r ← restPart cs
  pure { Groups.empty with
         major := some ma
         minor := some mi
         patch := some pa
         ctag := some ct
         cycle := some cy
         cbuild := some cb
         rest := some r }

def matchReleaseCycleA (t : String) : Option Groups := do
  let (ma, mi, pa, cs) ← releaseCore t.data
  let (ct, cy, cb, cs) ← cyclePartA cs
  let _ ← atEnd cs
  pure { Groups.empty with
         major := some ma
         minor := some mi
         patch := some pa
         ctag := some ct
         cycle := some cy
         cbuild := some cb }

def matchReleaseRest (t : String) : Option Groups := do
  let (ma, mi, pa, cs) ← releaseCore t.data
  let r ← restPart cs
  pure { Groups.empty with
         major := some ma
         minor := some mi
         patch := some pa
         rest := some r }

def matchRelease (t : String) : Option Groups := do
  let (ma, mi, pa, cs) ← releaseCore t.data
  let _ ← atEnd cs
  pure { Groups.empty with
         major := some ma
         minor := some mi
         patch := some pa }

/-- `r(?P<major>\d\d)(?P<minor>\d)$` — the obsolete `r170` form: exactly two
digits of major and one of minor, no `patch` group at all. -/
def matchLegacyRelease (t : String) : Option Groups :=
  match t.data with
  | ['r', a, b, c] =>
    if a.isDigit && b.isDigit && c.isDigit then
      some { Groups.empty with
           major := some (String.mk [a, b])
           minor := some (String.mk [c]) }
    else none
  | _ => none

def matchWeeklyCycleRestA (t : String) : Option Groups := do
  let (y, w, cs) ← weeklyCore t.data
  let (ct, cy, cb, cs) ← cyclePartA cs
  let r ← restPart cs
  pure { Groups.empty with
         year := some y
         week := some w
         ctag := some ct
         cycle := some cy
         cbuild := some cb
         rest := some r }

def matchWeeklyCycleA (t : String) : Option Groups := do
  let (y, w, cs) ← weeklyCore t.data
  let (ct, cy, cb, cs) ← cyclePartA cs
  let _ ← atEnd cs
  pure { Groups.empty with
         year := some y
         week := some w
         ctag := some ct
         cycle := some cy
         cbuild := some cb }

def matchWeeklyRest (t : String) : Option Groups := do
  let (y, w, cs) ← weeklyCore t.data
  let r ← restPart cs
  pure { Groups.empty with
         year := some y
         week := some w
         rest := some r }

def matchWeekly (t : String) : Option Groups := do
  let (y, w, cs) ← weeklyCore t.data
  let _ ← atEnd cs
  pure { Groups.empty with
         year := some y
         week := some w }

def matchDailyCycleRestA (t : String) : Option Groups := do
  let (y, m, d, cs) ← dailyCore t.data
  let (ct, cy, cb, cs) ← cyclePartA cs
  let r ← restPart cs
  pure { Groups.empty with
         year := some y
         month := some m
         day := some d
         ctag := some ct
         cycle := some cy
         cbuild := some cb
         rest := some r }

def matchDailyCycleA (t : String) : Option Groups := do
  let (y, m, d, cs) ← dailyCore t.data
  let (ct, cy, cb, cs) ← cyclePartA cs
  let _ ← atEnd cs
  pure { Groups.empty with
         year := some y
         month := some m
         day := some d
         ctag := some ct
         cycle := some cy
         cbuild := some cb }

def matchDailyRest (t : String) : Option Groups := do
  let (y, m, d, cs) ← dailyCore t.data
  let r ← restPart cs
  pure { Groups.empty with
         year := some y
         month := some m
         day := some d
         rest := some r }

def matchDaily (t : String) : Option Groups := do
  let (y, m, d, cs) ← dailyCore t.data
  let _ ← atEnd cs
  pure { Groups.empty with
         year := some y
         month := some m
         day := some d }

/-- `(?:exp)_(?P<rest>.*)$` (`rubintag.py`) — identical language to
`exp_(?P<rest>.*)$` (`rubintagfuncs.py`). -/
def matchExp (t : String) : Option Groups :=
  match t.data with
  | 'e' :: 'x' :: 'p' :: cs => do
    let r ← restPart cs
    pure { Groups.empty with
         rest := some r }
  | _ => none

/-- The entries with a `B`-shaped cycle group (`rubintagfuncs.py`): the same
language, but `cycle` keeps the whole `\d+\.\d+` text and there is no
`cbuild` group. -/
def toB (g : Groups) : Groups :=
  match g.cycle, g.cbuild with
  | some cy, some cb => { g with cycle := some (cy ++ "." ++ cb), cbuild := none }
  | _, _ => g

/-- `TAGTYPE_REGEXPS` of `rubintag.py`, in source order (first match wins;
release candidates precede releases). -/
def TAGTYPE_REGEXPS : List (RubinTagType × (String → Option Groups)) :=
  [ (.RELEASE_CANDIDATE, matchRcCycleRestA),
    (.RELEASE_CANDIDATE, matchRcCycleA),
    (.RELEASE_CANDIDATE, matchRcRest),
    (.RELEASE_CANDIDATE, matchRc),
    (.RELEASE, matchReleaseCycleRestA),
    (.RELEASE, matchReleaseCycleA),
    (.RELEASE, matchReleaseRest),
    (.RELEASE, matchRelease),
    (.RELEASE, matchLegacyRelease),
    (.WEEKLY, matchWeeklyCycleRestA),
    (.WEEKLY, matchWeeklyCycleA),
    (.WEEKLY, matchWeeklyRest),
    (.WEEKLY, matchWeekly),
    (.DAILY, matchDailyCycleRestA),
    (.DAILY, matchDailyCycleA),
    (.DAILY, matchDailyRest),
    (.DAILY, matchDaily),
    (.EXPERIMENTAL, matchExp) ]

/-- `TAGTYPE_REGEXPS` of `rubintagfuncs.py`: same table, `B`-shaped cycle
groups. -/
def TAGTYPE_REGEXPS_F : List (RubinTagType × (String → Option Groups)) :=
  TAGTYPE_REGEXPS.map (fun p => (p.1, fun t => (p.2 t).map toB))

/-- The `for (tagtype, regexp) in TAGTYPE_REGEXPS` loop: first match wins. -/
def findTagMatch : List (RubinTagType × (String → Option Groups)) → String →
    Option (RubinTagType × Groups)
  | [], _ => none
  | (ty, m) :: rest, t =>
    match m t with
    | some g => some (ty, g)
    | none => findTagMatch rest t

def tagtypeMatch (t : String) : Option (RubinTagType × Groups) :=
  findTagMatch TAGTYPE_REGEXPS t

def tagtypeMatchF (t : String) : Option (RubinTagType × Groups) :=
  findTagMatch TAGTYPE_REGEXPS_F t

end Cachemachine

namespace Cachemachine

/-! ## `rubintag.py`: `RubinPartialTag.parse_tag`, `compare`, `RubinTag.from_tag` -/

namespace Rubintag

/-- `RubinPartialTag.prettify_tag`: `tag.replace("_", " ").title()`. -/
def prettify_tag (tag : String) : String :=
  pyTitle (String.mk (tag.data.map (fun c => if c = '_' then ' ' else c)))

/-- `RubinPartialTag.maybe_int` (raising `int`'s `ValueError` on a non-digit
group, which nothing in `parse_tag` catches). -/
def maybe_int (n : Option String) : Except PyErr (Option Int) :=
  match n with
  | none => .ok none
  | some s =>
    match pyInt? s with
    | some i => .ok (some i)
    | none => .error (.valueError s)

/-- A Python word character (`\w`), ASCII model. -/
def isWordChar (c : Char) : Bool :=
  c.isAlphanum || c = '_'

/-- `RubinPartialTag.trailing_parts_to_semver_build_component`: glue the cycle
components and `rest` into a dot-separated alphanumeric semver build string.
The `[^\w|\.]+` pattern keeps word characters, `|` and `.`; everything else is
stripped (after underscores were turned into dots). -/
def trailing_parts_to_build (cycle cbuild ctag : Option String)
    (rest : Option String) : Option String :=
  let rest :=
    match cycle with
    | some cy =>
      if cy ≠ "" then
        match rest with
        | some r =>
          if r ≠ "" then some (optStr ctag ++ cy ++ "." ++ optStr cbuild ++ "_" ++ r)
          else some (optStr ctag ++ cy ++ "." ++ optStr cbuild)
        | none => some (optStr ctag ++ cy ++ "." ++ optStr cbuild)
      else rest
    | none => rest
  match rest with
  | none => none
  | some r =>
    if r = "" then none
    else
      let r := String.mk (r.data.map (fun c => if c = '_' then '.' else c))
      let r := String.mk (r.data.filter (fun c => isWordChar c || c = '|' || c = '.'))
      if r = "" then none else some r

/-- `RubinPartialTag.extract_metadata`.  The recursive `parse_tag` call of the
experimental branch is abstracted as `rec` (tied in `parseTagGo`).  The
default `restname = name[2:]` of the source is dead (every reachable branch
overwrites it before use) and is therefore not bound here. -/
def extract_metadata (rec : String → Except PyErr RubinPartialTag)
    (g : Groups) (tag : String) (tagtype : RubinTagType) :
    Except PyErr (String × Option VersionInfo × Option Int) :=
  match tagtype with
  | .UNKNOWN => .ok (tag, none, none)
  | .EXPERIMENTAL =>
    match g.rest with
    | some r => do
      let temp_ptag ← rec r
      .ok ("Experimental " ++ temp_ptag.display_name, none, none)
    | none => .ok (tag, none, none)
  | ty => do
    let build := trailing_parts_to_build g.cycle g.cbuild g.ctag g.rest
    let typename := prettify_tag ty.name
    let (major, minor, patch, pre, restname) ←
      if ty = .RELEASE ∨ ty = .RELEASE_CANDIDATE then do
        let major ← maybe_int g.major
        let minor ← maybe_int g.minor
        let patch ← maybe_int (some (g.patch.getD "0"))
        let restname := "r" ++ optIntStr major ++ "." ++ optIntStr minor ++ "."
          ++ optIntStr patch
        if truthy g.pre then
          pure (major, minor, patch, some ("rc" ++ g.pre.getD ""),
            restname ++ "-rc" ++ g.pre.getD "")
        else pure (major, minor, patch, g.pre, restname)
      else do
        let major ← maybe_int g.year
        if ty = .WEEKLY then do
          let minor ← maybe_int g.week
          pure (major, minor, some (0 : Int), none,
            optStr g.year ++ "_" ++ optStr g.week)
        else do
          let minor ← maybe_int g.month
          let patch ← maybe_int g.day
          pure (major, minor, patch, none,
            optStr g.year ++ "_" ++ optStr g.month ++ "_" ++ optStr g.day)
    let semver := mkVersionInfo? major minor patch pre build
    let name := typename ++ " " ++ restname
    let name :=
      match g.cycle with
      | some cy =>
        if cy ≠ "" then
          name ++ " (SAL Cycle " ++ cy ++ ", Build " ++ optStr g.cbuild ++ ")"
        else name
      | none => name
    let name :=
      match g.rest with
      | some r => if r ≠ "" then name ++ " [" ++ r ++ "]" else name
      | none => name
    let cycle_int ← maybe_int g.cycle
    .ok (name, semver, cycle_int)

/-- `RubinPartialTag.parse_tag`, with an explicit bound on the depth of the
`exp_`-recursion.  Each recursive call strips a four-character `exp_` prefix,
so `parse_tag` below supplies a bound that is proved never to be reached
(`parseTagGo_total`). -/
def parseTagGo : Nat → String → Except PyErr RubinPartialTag
  | 0, _ => .error .recursionError
  | fuel + 1, tag =>
    let t := if tag = "" then DOCKER_DEFAULT_TAG else tag
    match tagtypeMatch t with
    | some (tagtype, g) =>
      match extract_metadata (parseTagGo fuel) g t tagtype with
      | .ok (display_name, semver, cycle) =>
        .ok ⟨t, tagtype, display_name, semver, cycle⟩
      | .error e => .error e
    | none => .ok ⟨t, .UNKNOWN, t, none, none⟩

def parse_tag (tag : String) : Except PyErr RubinPartialTag :=
  parseTagGo (tag.length + 1) tag

/-- `IncomparableImageTypesError`, with the two offending tags. -/
inductive IncomparableImageTypesError where
  | incomparable : String → String → IncomparableImageTypesError
deriving DecidableEq, Repr

/-- `RubinPartialTag.compare`: raises on distinct image types; compares by
semantic version when both sides have one; otherwise sorts lexically by tag. -/
def compare (a b : RubinPartialTag) : Except IncomparableImageTypesError Int :=
  if a.image_type ≠ b.image_type then
    .error (.incomparable a.tag b.tag)
  else
    match a.semantic_version, b.semantic_version with
    | some va, some vb => .ok (va.compare vb)
    | _, _ =>
      if a.tag = b.tag then .ok 0
      else if pyStrLt a.tag b.tag then .ok (-1)
      else .ok 1

/-- `RubinTag` of `rubintag.py` (a `RubinPartialTag` plus reference and
digest). -/
structure RubinTag extends RubinPartialTag where
  image_ref : String
  digest : Option String
deriving DecidableEq, Repr

/-- `RubinTag.from_tag`.  Python default arguments are passed explicitly at
call sites (`image_ref=""`, `alias_tags=[]`, `override_name=""`,
`digest=None`, `override_cycle=None`).  Note the Python truthiness tests:
an empty `override_name` and a zero or absent `override_cycle` do not
override. -/
def from_tag (tag : String) (image_ref : String) (alias_tags : List String)
    (override_name : String) (digest : Option String)
    (override_cycle : Option Int) : Except PyErr RubinTag := do
  let partial_tag ← parse_tag tag
  let image_type := partial_tag.image_type
  let display_name := partial_tag.display_name
  let cycle := partial_tag.cycle
  let (image_type, display_name) :=
    if tag ∈ alias_tags then (RubinTagType.ALIAS, prettify_tag tag)
    else (image_type, display_name)
  let display_name := if override_name ≠ "" then override_name else display_name
  let cycle :=
    match override_cycle with
    | some c => if c ≠ 0 then some c else cycle
    | none => cycle
  .ok ⟨⟨tag, image_type, display_name, partial_tag.semantic_version, cycle⟩,
    image_ref, digest⟩

end Rubintag

end Cachemachine

namespace Cachemachine

/-! ## `rubintagfuncs.py`: `parse_tag` and its helpers -/

namespace Rubintagfuncs

/-- `titlecase` of `rubintagfuncs.py` (same body as
`RubinPartialTag.prettify_tag`). -/
def titlecase (tag : String) : String :=
  pyTitle (String.mk (tag.data.map (fun c => if c = '_' then ' ' else c)))

/-- `maybe_int` of `rubintagfuncs.py`: `int(float(n))`, so that the cycle
group `0019.001` also converts. -/
def maybe_int (n : Option String) : Except PyErr (Option Int) :=
  match n with
  | none => .ok none
  | some s =>
    match pyIntOfFloat? s with
    | some i => .ok (some i)
    | none => .error (.valueError s)

/-- `cycle_and_rest_to_optional_buildstring` of `rubintagfuncs.py` (the
`cycle` group already carries its dot here). -/
def cycle_and_rest_to_buildstring (cycle ctag : Option String)
    (rest : Option String) : Option String :=
  let rest :=
    match cycle with
    | some cy =>
      if cy ≠ "" then
        match rest with
        | some r =>
          if r ≠ "" then some (optStr ctag ++ cy ++ "_" ++ r)
          else some (optStr ctag ++ cy)
        | none => some (optStr ctag ++ cy)
      else rest
    | none => rest
  match rest with
  | none => none
  | some r =>
    if r = "" then none
    else
      let r := String.mk (r.data.map (fun c => if c = '_' then '.' else c))
      let r := String.mk (r.data.filter (fun c =>
        Rubintag.isWordChar c || c = '|' || c = '.'))
      if r = "" then none else some r

/-- The result quadruple of `rubintagfuncs.parse_tag`:
`(tagtype, display name, semantic version, cycle)`. -/
abbrev ParsedTag := RubinTagType × String × Option VersionInfo × Option Int

/-- `extract_metadata` of `rubintagfuncs.py`.  It differs from the
`rubintag.py` method in its display-name suffixes (`_c0019.001` instead of
`(SAL Cycle ..., Build ...)`), its build-string helper and its
float-tolerant `maybe_int`.  The recursive `parse_tag` call is abstracted as
`rec`. -/
def extract_metadata (rec : String → Except PyErr ParsedTag)
    (g : Groups) (tag : String) (tagtype : RubinTagType) :
    Except PyErr (String × Option VersionInfo × Option Int) :=
  match tagtype with
  | .UNKNOWN => .ok (tag, none, none)
  | .ALIAS => .ok (titlecase tag, none, none)
  | .EXPERIMENTAL =>
    match g.rest with
    | some r => do
      let (_, nname, _, _) ← rec r
      .ok ("Experimental " ++ nname, none, none)
    | none => .ok (tag, none, none)
  | ty => do
    let build := cycle_and_rest_to_buildstring g.cycle g.ctag g.rest
    let typename := titlecase ty.name
    let (major, minor, patch, pre, restname) ←
      if ty = .RELEASE ∨ ty = .RELEASE_CANDIDATE then do
        let major ← maybe_int g.major
        let minor ← maybe_int g.minor
        let patch ← maybe_int (some (g.patch.getD "0"))
        let restname := "r" ++ optIntStr major ++ "." ++ optIntStr minor ++ "."
          ++ optIntStr patch
        if truthy g.pre then
          pure (major, minor, patch, some ("rc" ++ g.pre.getD ""),
            restname ++ "-rc" ++ g.pre.getD "")
        else pure (major, minor, patch, g.pre, restname)
      else do
        let major ← maybe_int g.year
        if ty = .WEEKLY then do
          let minor ← maybe_int g.week
          pure (major, minor, some (0 : Int), none,
            optStr g.year ++ "_" ++ optStr g.week)
        else do
          let minor ← maybe_int g.month
          let patch ← maybe_int g.day
          pure (major, minor, patch, none,
            optStr g.year ++ "_" ++ optStr g.month ++ "_" ++ optStr g.day)
    let semver := mkVersionInfo? major minor patch pre build
    let name := typename ++ " " ++ restname
    let name :=
      match g.cycle with
      | some cy =>
        if cy ≠ "" then name ++ "_" ++ optStr g.ctag ++ cy else name
      | none => name
    let name :=
      match g.rest with
      | some r => if r ≠ "" then name ++ "_" ++ r else name
      | none => name
    let cycle_int ← maybe_int g.cycle
    .ok (name, semver, cycle_int)

/-- `parse_tag` of `rubintagfuncs.py`, with the same explicit recursion-depth
bound as `Rubintag.parseTagGo`.  Unlike the `rubintag.py` classmethod it
lower-cases-enforces the tag and short-circuits on alias membership before
any grammar matching; the recursive call of the experimental branch uses the
Python default arguments (`override_name=""`, `alias_tags=[]`). -/
def parseTagGo : Nat → String → String → List String → Except PyErr ParsedTag
  | 0, _, _, _ => .error .recursionError
  | fuel + 1, tag, override_name, alias_tags =>
    let t := if tag = "" then DOCKER_DEFAULT_TAG else tag
    if t ≠ pyLower t then
      .ok (.UNKNOWN, t, none, none)
    else if t ∈ alias_tags then
      let name := titlecase t
      let name := if override_name ≠ "" then override_name else name
      .ok (.ALIAS, name, none, none)
    else
      match tagtypeMatchF t with
      | some (tagtype, g) =>
        match extract_metadata (fun r => parseTagGo fuel r "" []) g t tagtype with
        | .ok (name, semver, cycle) =>
          let name := if override_name ≠ "" then override_name else name
          .ok (tagtype, name, semver, cycle)
        | .error e => .error e
      | none => .ok (.UNKNOWN, t, none, none)

def parse_tag (tag override_name : String) (alias_tags : List String) :
    Except PyErr ParsedTag :=
  parseTagGo (tag.length + 1) tag override_name alias_tags

end Rubintagfuncs

end Cachemachine

namespace Cachemachine

/-! ## `types.py`: image containers and label matching -/

/-- `CachedDockerImage` of `types.py`. -/
structure CachedDockerImage where
  image_url : String
  image_hash : String
  tags : List String
deriving DecidableEq, Repr

/-- `DockerImage` of `types.py` (`image_hash` optional: `None` means any
digest for this URL is acceptable). -/
structure DockerImage where
  image_url : String
  image_hash : Option String
  name : String
deriving DecidableEq, Repr

/-- `ImageEntry` of `types.py`: the per-repository accumulator of
`inspect_node_caches`. -/
structure ImageEntry where
  image_hash : Option String
  tags : List String
deriving DecidableEq, Repr

/-- `KubernetesLabels.matches` / the `items() <= items()` test of
`cachechecker.py`: every selector pair occurs among the node's label pairs
(Python dicts have unique keys, so item-subset is pairwise membership). -/
def labelsMatch (sel nodeLabels : List (String × String)) : Bool :=
  sel.all (fun kv => nodeLabels.contains kv)

/-- One entry of `V1Node.status.images`: the list of names one pulled image
is known by on the node. -/
structure ContainerImage where
  names : List String
deriving DecidableEq, Repr

/-- The projection of `V1Node` that `inspect_node_caches` and
`CacheChecker.check` read: `metadata.labels` and `status.images`. -/
structure KubeNode where
  labels : List (String × String)
  images : List ContainerImage
deriving DecidableEq, Repr

/-! ## `cachemachine.py`: `CacheMachine.inspect_node_caches` -/

/-- The exceptions that can escape `inspect_node_caches` (`ValueError` from a
failed tuple unpacking of `str.split`, and `KubernetesImageHashNotFound`). -/
inductive InspectErr where
  | valueError : String → InspectErr
  | imageHashNotFound : String → InspectErr
deriving DecidableEq, Repr

/-- `(a, b) = parts`: tuple unpacking, `ValueError` unless exactly two. -/
def unpack2 (parts : List String) : Except InspectErr (String × String) :=
  match parts with
  | [a, b] => .ok (a, b)
  | _ => .error (.valueError "unpack")

/-- `entries[repository]` mutation on the `defaultdict(ImageEntry)`: update
in place if the key exists, else append a fresh default entry (Python dicts
iterate in insertion order). -/
def updEntries (es : List (String × ImageEntry)) (repo : String)
    (f : ImageEntry → ImageEntry) : List (String × ImageEntry) :=
  match es with
  | [] => [(repo, f ⟨none, []⟩)]
  | (k, v) :: rest =>
    if k = repo then (k, f v) :: rest else (k, v) :: updEntries rest repo f

/-- The `for url in i.names` loop of `inspect_node_caches`: store everything
by repository, collating the hash and the tags. -/
def groupStep (es : List (String × ImageEntry)) (url : String) :
    Except InspectErr (List (String × ImageEntry)) :=
  if url = "<none>@<none>" ∨ url = "<none>:<none>" then
    .ok es
  else if pyIn "@sha256:" url then do
    let (repository, image_hash) ← unpack2 (pySplit1 '@' url)
    .ok (updEntries es repository (fun ie => { ie with image_hash := some image_hash }))
  else do
    let (repository, new_tag) ← unpack2 (pySplit1 ':' url)
    .ok (updEntries es repository (fun ie =>
      if new_tag ∈ ie.tags then ie else { ie with tags := ie.tags ++ [new_tag] }))

def groupEntries (names : List String) :
    Except InspectErr (List (String × ImageEntry)) :=
  names.foldlM groupStep []

/-- The emission loop over one repository entry: one `CachedDockerImage` per
tag, with the other tags of the same repository attached; a tagged repository
without a hash raises `KubernetesImageHashNotFound`. -/
def entryImages (repository : String) (ie : ImageEntry) :
    Except InspectErr (List CachedDockerImage) :=
  ie.tags.mapM (fun t =>
    match ie.image_hash with
    | none => .error (.imageHashNotFound repository)
    | some h => .ok ⟨repository ++ ":" ++ t, h, ie.tags.erase t⟩)

/-- The structured per-node image list of `inspect_node_caches` (the
`node_images` accumulated over all of `n.status.images`). -/
def nodeImages (n : KubeNode) : Except InspectErr (List CachedDockerImage) :=
  n.images.foldlM (fun acc i => do
    let entries ← groupEntries i.names
    let imgs ← entries.foldlM (fun a p => do
      let l ← entryImages p.1 p.2
      pure (a ++ l)) []
    pure (acc ++ imgs)) []

/-- Tag-set union as the source performs it: append each new tag not already
present, in the node image's order. -/
def unionTags (base extra : List String) : List String :=
  extra.foldl (fun b t => if t ∈ b then b else b ++ [t]) base

/-- One `common_image` of the intersection loop.  In the source the same
mutable `common_image` object is unioned with and appended for every matching
`node_image`, so all appended copies alias the final object: the result is
that many copies of the image carrying the union of the tags of all matches. -/
def intersectOne (ci : CachedDockerImage) (node_images : List CachedDockerImage) :
    List CachedDockerImage :=
  let ms := node_images.filter (fun ni =>
    ci.image_hash = ni.image_hash ∧ ci.image_url = ni.image_url)
  List.replicate ms.length
    { ci with tags := ms.foldl (fun acc ni => unionTags acc ni.tags) ci.tags }

/-- The `new_common_cache` double loop of `inspect_node_caches` (and,
verbatim, of `CacheChecker.check`). -/
def intersectCaches (common node_images : List CachedDockerImage) :
    List CachedDockerImage :=
  common.foldl (fun acc ci => acc ++ intersectOne ci node_images) []

/-- The node loop of `inspect_node_caches`, carrying the `first_node` flag. -/
def inspectGo (sel : List (String × String)) :
    Bool → List CachedDockerImage → List KubeNode →
    Except InspectErr (List CachedDockerImage)
  | _, common, [] => .ok common
  | first, common, n :: rest =>
    if labelsMatch sel n.labels then
      match nodeImages n with
      | .error e => .error e
      | .ok imgs =>
        inspectGo sel false (if first then imgs else intersectCaches common imgs) rest
    else
      inspectGo sel first common rest

/-- `CacheMachine.inspect_node_caches` as a function of the listed nodes. -/
def inspect_node_caches (sel : List (String × String)) (nodes : List KubeNode) :
    Except InspectErr (List CachedDockerImage) :=
  inspectGo sel true [] nodes

/-! ## `cachechecker.py`: `CacheChecker.check` -/

/-- The exceptions that can escape `CacheChecker.check`: `ValueError` from
tuple unpacking and `IndexError` from `url.split(":")[1]` on a name without a
colon.  (Unlike `inspect_node_caches` there is no hash-not-found raise.) -/
inductive CheckErr where
  | valueError : String → CheckErr
  | indexError : String → CheckErr
deriving DecidableEq, Repr

def unpack2C (parts : List String) : Except CheckErr (String × String) :=
  match parts with
  | [a, b] => .ok (a, b)
  | _ => .error (.valueError "unpack")

/-- `url.split(":")[1]`. -/
def splitIndex1 (url : String) : Except CheckErr String :=
  match pySplit1 ':' url with
  | _ :: t :: _ => .ok t
  | _ => .error (.indexError url)

/-- The body of the `for url in i.names` loop of `CacheChecker.check`:
`tags` accumulates the tag of every `repository:tag` name regardless of its
repository, and `repository` / `image_hash` are overwritten by each
`@sha256:` name, so the last digest name of the group wins. -/
def checkStep (st : List String × Option String × Option String) (url : String) :
    Except CheckErr (List String × Option String × Option String) :=
  if url = "<none>@<none>" ∨ url = "<none>:<none>" then
    .ok st
  else if pyIn "@sha256:" url then do
    let (r, h) ← unpack2C (pySplit1 '@' url)
    .ok (st.1, some r, some h)
  else do
    let new_tag ← splitIndex1 url
    .ok (if new_tag ∈ st.1 then st.1 else st.1 ++ [new_tag], st.2.1, st.2.2)

/-- The per-group loop of `CacheChecker.check`. -/
def checkGroup (names : List String) :
    Except CheckErr (List String × Option String × Option String) :=
  names.foldlM checkStep ([], none, none)

/-- One group's contribution in `CacheChecker.check`: one image per collected
tag if the group ended with a truthy repository and hash, nothing otherwise
(a digest-less group is silently dropped). -/
def checkerNodeStep (acc : List CachedDockerImage) (i : ContainerImage) :
    Except CheckErr (List CachedDockerImage) := do
  let (tags, repository, image_hash) ← checkGroup i.names
  let imgs :=
    if truthy repository ∧ truthy image_hash then
      tags.map (fun t =>
        (⟨optStr repository ++ ":" ++ t, optStr image_hash, tags.erase t⟩ :
          CachedDockerImage))
    else []
  pure (acc ++ imgs)

/-- The structured per-node image list of `CacheChecker.check`. -/
def checkerNodeImages (n : KubeNode) : Except CheckErr (List CachedDockerImage) :=
  n.images.foldlM checkerNodeStep []

/-- The node loop of `CacheChecker.check` (the intersection double loop is
verbatim the one of `inspect_node_caches`, so `intersectCaches` is shared). -/
def checkGo (sel : List (String × String)) :
    Bool → List CachedDockerImage → List KubeNode →
    Except CheckErr (List CachedDockerImage)
  | _, common, [] => .ok common
  | first, common, n :: rest =>
    if labelsMatch sel n.labels then
      match checkerNodeImages n with
      | .error e => .error e
      | .ok imgs =>
        checkGo sel false (if first then imgs else intersectCaches common imgs) rest
    else
      checkGo sel first common rest

/-- `CacheChecker.check` as a function of the listed nodes. -/
def checker_check (sel : List (String × String)) (nodes : List KubeNode) :
    Except CheckErr (List CachedDockerImage) :=
  checkGo sel true [] nodes

end Cachemachine

namespace Cachemachine

/-! ## `cachemachine.py`: the `do_work` tick

The Kubernetes daemonset port is modelled by the phase of the target's pull
daemonset: absent, still pulling, or finished.  `daemonset_create`,
`daemonset_finished` and `daemonset_delete` are modelled as behaving normally
(their own API failures abort the tick through the outer `except`, which the
verified properties are not about). -/

inductive DaemonsetPhase where
  | running
  | finished
deriving DecidableEq, Repr

/-- `CacheMachine.caching`: a finished daemonset is deleted and reported not
caching; an absent one (`KubernetesDaemonsetNotFound`) is reported not
caching; a running one is reported caching.  Returns the flag and the
daemonset state it leaves behind. -/
def caching : Option DaemonsetPhase → Bool × Option DaemonsetPhase
  | none => (false, none)
  | some .finished => (false, none)
  | some .running => (true, some .running)

/-- The availability scan of one `do_work` tick: for each desired image, one
copy is appended to `available_images` per matching common-cache entry
(matching: same URL, and same hash unless the desired hash is `None`); a
desired image with no match at all goes to `images_to_cache`, in order. -/
def tickLists (common : List CachedDockerImage) (desired : List DockerImage) :
    List DockerImage × List DockerImage :=
  desired.foldl (fun st image =>
    let ms := common.filter (fun i =>
      i.image_url = image.image_url ∧
        (image.image_hash = none ∨ some i.image_hash = image.image_hash))
    (st.1 ++ ms.map (fun _ => image),
     if ms.isEmpty then st.2 ++ [image] else st.2))
    ([], [])

/-- The observable outcome of one `do_work` tick: the three published lists,
the daemonset state after the tick, and the `start_caching` calls made (by
image URL, in order). -/
structure TickResult where
  available : List DockerImage
  desired : List DockerImage
  missing : List DockerImage
  job : Option DaemonsetPhase
  creates : List String
deriving DecidableEq, Repr

/-- One iteration of `CacheMachine.do_work`, given the common cache computed
by `inspect_node_caches` and the concatenated `desired_images` of the
configured repomen.  `caching()` is only consulted when `images_to_cache` is
non-empty (Python's short-circuiting `and`), and `start_caching` is called
for the first missing image exactly when `caching()` returned `False`. -/
def do_work_tick (common : List CachedDockerImage) (desired : List DockerImage)
    (job : Option DaemonsetPhase) : TickResult :=
  let (available_images, images_to_cache) := tickLists common desired
  match images_to_cache with
  | [] => ⟨available_images, desired, [], job, []⟩
  | m :: ms =>
    let (isCaching, job1) := caching job
    if isCaching then
      ⟨available_images, desired, m :: ms, job1, []⟩
    else
      ⟨available_images, desired, m :: ms, some .running, [m.image_url]⟩

/-! ## `cachemachinemanager.py`: `CacheMachineManager.create` / `release`

The aiojobs scheduler is modelled by the list of loop tasks it has spawned
(tagged with the machine name they run for, in spawn order) and the set of
task handles that have been closed.  `self._machines` and `self._jobs` are
the manager's two dicts; handles are numbered by a counter. -/

def lookupKey (m : List (String × Nat)) (k : String) : Option Nat :=
  match m with
  | [] => none
  | (k', v) :: rest => if k' = k then some v else lookupKey rest k

def setKey (m : List (String × Nat)) (k : String) (v : Nat) : List (String × Nat) :=
  match m with
  | [] => [(k, v)]
  | (k', v') :: rest =>
    if k' = k then (k', v) :: rest else (k', v') :: setKey rest k v

def delKey (m : List (String × Nat)) (k : String) : List (String × Nat) :=
  match m with
  | [] => []
  | (k', v') :: rest => if k' = k then rest else (k', v') :: delKey rest k

structure ManagerState where
  machines : List (String × Nat)
  jobs : List (String × Nat)
  spawned : List (String × Nat)
  closed : List Nat
  next : Nat
deriving DecidableEq, Repr

def initManager : ManagerState :=
  ⟨[], [], [], [], 0⟩

/-- `CacheMachineManager.release`: close and drop the job stored under this
name, if any, and drop the machine of this name. -/
def release (name : String) (st : ManagerState) : ManagerState :=
  let st :=
    match lookupKey st.jobs name with
    | some j => { st with closed := st.closed ++ [j], jobs := delKey st.jobs name }
    | none => st
  { st with machines := delKey st.machines name }

/-- `CacheMachineManager.create` (the scheduling core; parsing the request
body is not modelled): release anything previously named the same, store the
new machine, and spawn its `do_work` loop.  The `Job` handle returned by
`scheduler.spawn` is discarded — nothing is added to `self._jobs`. -/
def create (name : String) (st : ManagerState) : ManagerState :=
  let st := release name st
  { st with
    machines := setKey st.machines name st.next
    spawned := st.spawned ++ [(name, st.next)]
    next := st.next + 1 }

/-- The loop tasks the scheduler is still running: spawned and never closed. -/
def runningLoops (st : ManagerState) : List (String × Nat) :=
  st.spawned.filter (fun p => ¬ p.2 ∈ st.closed)

/-! ## `rubintag.py`: `RubinHashCache.from_cache` -/

/-- `RubinHashCache._tag_from_ref`: the anchored pattern
`[^:]+:([^@]+)(?:\Z|@.*)`.  It matches iff the reference has a colon with a
non-empty colon-free prefix and at least one non-`@` character after the
first colon; the tag is then everything from the first colon to the first
following `@` (or the end).  A reference without a tag is implicitly
`latest`. -/
def afterFirstColon : List Char → Option (List Char)
  | [] => none
  | c :: cs => if c = ':' then some cs else afterFirstColon cs

def tag_from_ref (ref : String) : String :=
  match ref.data with
  | [] => DOCKER_DEFAULT_TAG
  | c :: cs =>
    if c = ':' then DOCKER_DEFAULT_TAG
    else
      match afterFirstColon cs with
      | none => DOCKER_DEFAULT_TAG
      | some rest =>
        let t := rest.takeWhile (fun d => d ≠ '@')
        if t.isEmpty then DOCKER_DEFAULT_TAG else String.mk t

/-- Add a member to a `set` held in a `defaultdict(set)`: create the entry on
first access, skip duplicates (a Python set, specified up to membership). -/
def addToSetMap (m : List (String × List String)) (k v : String) :
    List (String × List String) :=
  match m with
  | [] => [(k, [v])]
  | (k', vs) :: rest =>
    if k' = k then (k', if v ∈ vs then vs else vs ++ [v]) :: rest
    else (k', vs) :: addToSetMap rest k v

def lookupSMap (m : List (String × List String)) (k : String) : List String :=
  match m with
  | [] => []
  | (k', vs) :: rest => if k' = k then vs else lookupSMap rest k

def lookupSKey (m : List (String × String)) (k : String) : Option String :=
  match m with
  | [] => none
  | (k', v) :: rest => if k' = k then some v else lookupSKey rest k

def setSKey (m : List (String × String)) (k v : String) : List (String × String) :=
  match m with
  | [] => [(k, v)]
  | (k', v') :: rest =>
    if k' = k then (k', v) :: rest else (k', v') :: setSKey rest k v

/-- `RubinHashCache`: the forward tag→digest dict and the inverted
digest→tags dict, plus the list of `(tag, rejected digest)` conflicts the
source logs with `logger.error`. -/
structure RubinHashCache where
  tag_to_hash : List (String × String)
  hash_to_tags : List (String × List String)
  errors : List (String × String)
deriving DecidableEq, Repr

/-- The inner `for tag in alltags` body of `RubinHashCache.from_cache`: record
the tag under the digest in the inverted dict; in the forward dict the first
digest for a tag wins, and a different later digest is only logged. -/
def hashCacheStep (hc : RubinHashCache) (p : String × String) : RubinHashCache :=
  let hc1 := { hc with hash_to_tags := addToSetMap hc.hash_to_tags p.2 p.1 }
  match lookupSKey hc1.tag_to_hash p.1 with
  | some h0 =>
    if h0 ≠ p.2 then { hc1 with errors := hc1.errors ++ [(p.1, p.2)] }
    else hc1
  | none => { hc1 with tag_to_hash := setSKey hc1.tag_to_hash p.1 p.2 }

/-- The `(tag, digest)` pairs one cache entry contributes, in processing
order: the tag extracted from `image_url` first, then the `tags` list, all
paired with the entry's hash — nothing if the hash is falsy (`alltags` is
never empty, since the extracted tag is always prepended). -/
def entryPairs (entry : CachedDockerImage) : List (String × String) :=
  if entry.image_hash ≠ "" then
    (tag_from_ref entry.image_url :: entry.tags).map (fun t => (t, entry.image_hash))
  else []

/-- `RubinHashCache.from_cache`. -/
def from_cache (common_cache : List CachedDockerImage) : RubinHashCache :=
  common_cache.foldl (fun hc entry => (entryPairs entry).foldl hashCacheStep hc)
    ⟨[], [], []⟩

/-- All `(tag, digest)` pairs of a cache, in processing order — the
specification-side flattening that `from_cache` is proved against. -/
def cachePairs (common_cache : List CachedDockerImage) : List (String × String) :=
  common_cache.flatMap entryPairs

/-- What the three parts of a `RubinHashCache` hold after processing a list
of `(tag, digest)` pairs: the forward dict maps each tag to the digest of its
first pair; the inverted dict relates exactly the processed pairs; the error
log holds exactly the pairs whose tag already had a different digest. -/
def HashCacheInv (ps : List (String × String)) (hc : RubinHashCache) : Prop :=
  (∀ t, lookupSKey hc.tag_to_hash t =
      (ps.find? (fun p => p.1 == t)).map (fun p => p.2))
  ∧ (∀ t h, t ∈ lookupSMap hc.hash_to_tags h ↔ (t, h) ∈ ps)
  ∧ (∀ t h, (t, h) ∈ hc.errors ↔
      (t, h) ∈ ps ∧ (ps.find? (fun p => p.1 == t)).map (fun p => p.2) ≠ some h)

end Cachemachine

namespace Cachemachine

/-! ## Specification-side definitions used by the theorems -/

/-- The tag contains an upper-case ASCII letter. -/
def hasUpper (s : String) : Bool :=
  s.data.any (fun c => 65 ≤ c.toNat && c.toNat ≤ 90)

/-- A non-empty all-digit string (the language of a `\d+` group). -/
def DigitStr (s : String) : Prop :=
  s.data ≠ [] ∧ s.data.all Char.isDigit = true

def DigitOpt (o : Option String) : Prop :=
  ∀ s, o = some s → DigitStr s

/-- Every group of a grammar match that `extract_metadata` converts with
`maybe_int` is a digit run. -/
def DigitGroups (g : Groups) : Prop :=
  DigitOpt g.major ∧ DigitOpt g.minor ∧ DigitOpt g.patch ∧ DigitOpt g.year ∧
    DigitOpt g.week ∧ DigitOpt g.month ∧ DigitOpt g.day ∧ DigitOpt g.cycle ∧
    DigitOpt g.cbuild

/-- A string `int(float(.))` converts: a digit run, or the `digits.digits`
shape of a merged `B`-form cycle group. -/
def FloatStr (s : String) : Prop :=
  ∃ i, pyIntOfFloat? s = some i

def FloatOpt (o : Option String) : Prop :=
  ∀ s, o = some s → FloatStr s

/-- The group property `rubintagfuncs.extract_metadata` needs: digit runs in
every `int`-converted group except the merged cycle group, which is
float-convertible. -/
def FDigitGroups (g : Groups) : Prop :=
  DigitOpt g.major ∧ DigitOpt g.minor ∧ DigitOpt g.patch ∧ DigitOpt g.year ∧
    DigitOpt g.week ∧ DigitOpt g.month ∧ DigitOpt g.day ∧ FloatOpt g.cycle

/-- The `(imageURL, digest)` key of a cached image. -/
def keyOf (im : CachedDockerImage) : String × String :=
  (im.image_url, im.image_hash)

/-- The key occurs in an emitted per-node image list. -/
def HasKey (e : List CachedDockerImage) (k : String × String) : Prop :=
  ∃ im, im ∈ e ∧ keyOf im = k

/-- `t` is among the tags some node's emitted image with key `k` carries. -/
def TagAt (es : List (List CachedDockerImage)) (k : String × String)
    (t : String) : Prop :=
  ∃ e, e ∈ es ∧ ∃ im, im ∈ e ∧ keyOf im = k ∧ t ∈ im.tags

/-- The per-node image lists of the nodes matching the selector, in node
order (defined iff every qualifying node parses). -/
def qualImages (sel : List (String × String)) (nodes : List KubeNode) :
    Except InspectErr (List (List CachedDockerImage)) :=
  (nodes.filter (fun n => labelsMatch sel n.labels)).mapM nodeImages

/-- Folding the intersection over a list of per-node caches: the first
qualifying node's cache seeds the fold, exactly as the `first_node` flag
does. -/
def interFold : List (List CachedDockerImage) → List CachedDockerImage
  | [] => []
  | e :: es => es.foldl intersectCaches e

/-- Each per-node image list mentions each `(imageURL, digest)` key at most
once (true of well-formed node data, where no image name is listed twice on
one node). -/
def KeysNodup (e : List CachedDockerImage) : Prop :=
  (e.map keyOf).Nodup

end Cachemachine

deriving instance DecidableEq for Except

namespace Cachemachine

/-! ## Helper lemmas -/

theorem toLower_ne_of_upper (c : Char) (h1 : 65 ≤ c.toNat) (h2 : c.toNat ≤ 90) :
    Char.toLower c ≠ c := by
  have hval : (c.toNat + 32).isValidChar := Or.inl (by omega)
  have hv : (Char.ofNat (c.toNat + 32)).toNat = c.toNat + 32 := by
    rw [Char.ofNat, dif_pos hval]
    simp [Char.ofNatAux, Char.toNat, UInt32.toNat, BitVec.toNat_ofNatLt]
  intro he
  unfold Char.toLower at he
  simp only [ge_iff_le, h1, h2, and_self, if_true, if_pos] at he
  rw [he] at hv
  omega

theorem mapLower_ne (l : List Char)
    (h : l.any (fun c => 65 ≤ c.toNat && c.toNat ≤ 90) = true) :
    l.map Char.toLower ≠ l := by
  induction l with
  | nil => simp at h
  | cons c cs ih =>
    simp only [List.any_cons, Bool.or_eq_true] at h
    intro he
    rw [List.map_cons] at he
    obtain ⟨he1, he2⟩ := List.cons.inj he
    rcases h with hc | hcs
    · have hc' : 65 ≤ c.toNat ∧ c.toNat ≤ 90 := by simpa using hc
      exact toLower_ne_of_upper c hc'.1 hc'.2 he1
    · exact ih hcs he2

theorem pyLower_ne (s : String) (h : hasUpper s = true) : pyLower s ≠ s := by
  intro he
  have hd : s.data.map Char.toLower = s.data := congrArg String.data he
  exact mapLower_ne s.data h hd

theorem hasUpper_ne_empty (s : String) (h : hasUpper s = true) : s ≠ "" := by
  intro he
  subst he
  simp [hasUpper] at h

end Cachemachine


namespace Cachemachine

/-- C3: on any tick whose missing list is non-empty and whose target has no
running pull daemonset, exactly one pull job is created, for the first
missing image in priority order; while a pull daemonset is running no new one
is started, and a tick never creates more than one job. -/
theorem c3_one_pull_job (common : List CachedDockerImage)
    (desired : List DockerImage) (job : Option DaemonsetPhase) :
    ((do_work_tick common desired job).creates.length ≤ 1)
    ∧ (job = some .running →
        (do_work_tick common desired job).creates = []
        ∧ (do_work_tick common desired job).job = some .running)
    ∧ (∀ m ms, (tickLists common desired).2 = m :: ms →
        job ≠ some DaemonsetPhase.running →
        (do_work_tick common desired job).creates = [m.image_url]
        ∧ (do_work_tick common desired job).job = some .running)
    ∧ ((tickLists common desired).2 = [] →
        (do_work_tick common desired job).creates = []) := by
  rcases htl : tickLists common desired with ⟨av, mi⟩
  cases mi with
  | nil =>
    simp [do_work_tick, htl]
  | cons m ms =>
    cases job with
    | none =>
      simp only [do_work_tick, htl, caching]
      refine ⟨by simp, by simp, ?_, by simp⟩
      intro m' ms' hm _
      obtain ⟨rfl, rfl⟩ := List.cons.inj hm
      simp
    | some ph =>
      cases ph with
      | running =>
        simp only [do_work_tick, htl, caching]
        refine ⟨by simp, by simp, ?_, by simp⟩
        intro m' ms' _ hj
        exact absurd rfl hj
      | finished =>
        simp only [do_work_tick, htl, caching]
        refine ⟨by simp, by simp, ?_, by simp⟩
        intro m' ms' hm _
        obtain ⟨rfl, rfl⟩ := List.cons.inj hm
        simp

end Cachemachine

namespace Cachemachine

/-- Witness for C3: empty cache, one desired image, no daemonset — exactly
one pull job is created, for that image. -/
theorem c3_witness :
    (do_work_tick [] [⟨"reg/repo:w_2021_22", none, "Weekly 2021_22"⟩] none).creates
        = ["reg/repo:w_2021_22"]
    ∧ (do_work_tick [] [⟨"reg/repo:w_2021_22", none, "Weekly 2021_22"⟩] none).job
        = some .running :=
  (c3_one_pull_job [] [⟨"reg/repo:w_2021_22", none, "Weekly 2021_22"⟩] none).2.2.1
    ⟨"reg/repo:w_2021_22", none, "Weekly 2021_22"⟩ [] (by decide) (by decide)

/-- C2: for every pair of classified tags `a` and `b`, if their kinds differ
then `RubinPartialTag.compare` raises `IncomparableImageTypesError` and never
returns an ordering. -/
theorem c2_compare_cross_kind_raises (a b : RubinPartialTag)
    (h : a.image_type ≠ b.image_type) :
    Rubintag.compare a b = .error (.incomparable a.tag b.tag) := by
  unfold Rubintag.compare
  rw [if_pos h]

/-- Witness for C2 at a concrete weekly/release pair. -/
theorem c2_witness :
    (RubinTagType.WEEKLY ≠ RubinTagType.RELEASE) ∧
      Rubintag.compare ⟨"w_2021_22", .WEEKLY, "Weekly 2021_22", none, none⟩
        ⟨"r21_0_1", .RELEASE, "Release r21.0.1", none, none⟩ =
        .error (.incomparable "w_2021_22" "r21_0_1") :=
  ⟨by decide,
    c2_compare_cross_kind_raises
      ⟨"w_2021_22", .WEEKLY, "Weekly 2021_22", none, none⟩
      ⟨"r21_0_1", .RELEASE, "Release r21.0.1", none, none⟩ (by decide)⟩

/-- C9 (code bug): `CacheMachineManager.create` discards the `Job` handle
returned by `scheduler.spawn` and never populates `self._jobs`, so
`release` closes nothing: after creating the same name twice, two `do_work`
loops for that name are still running, and `release` only removes the dict
entries without cancelling anything. -/
theorem c9_create_leaks_old_loop :
    runningLoops (create "t" (create "t" initManager)) = [("t", 0), ("t", 1)]
    ∧ (create "t" (create "t" initManager)).machines = [("t", 1)]
    ∧ (create "t" (create "t" initManager)).jobs = []
    ∧ release "t" (create "t" initManager) =
        { machines := [], jobs := [], spawned := [("t", 0)], closed := [], next := 1 } := by
  decide

end Cachemachine

namespace Cachemachine

/-- C5 counterexample: two distinct classified tags of the same kind
(`UNKNOWN`), as produced by `parse_tag`; `compare` returns an ordering
(`1`), it does not raise. -/
theorem c5_counterexample :
    Rubintag.parse_tag "zzz" = .ok ⟨"zzz", .UNKNOWN, "zzz", none, none⟩
    ∧ Rubintag.parse_tag "aaa" = .ok ⟨"aaa", .UNKNOWN, "aaa", none, none⟩
    ∧ ("zzz" : String) ≠ "aaa"
    ∧ Rubintag.compare ⟨"zzz", .UNKNOWN, "zzz", none, none⟩
        ⟨"aaa", .UNKNOWN, "aaa", none, none⟩ = .ok 1 := by
  decide

/-- C5 amended: for same-kind Alias or Unknown tags (no semantic version on
at least one side), `compare` returns equality exactly on equal raw strings
and otherwise the lexicographic ordering of the raw strings — it never
raises. -/
theorem c5_amended_lexicographic (a b : RubinPartialTag)
    (hk : a.image_type = b.image_type)
    (ht : a.image_type = RubinTagType.ALIAS ∨ a.image_type = RubinTagType.UNKNOWN)
    (hsv : a.semantic_version = none ∨ b.semantic_version = none) :
    Rubintag.compare a b =
      .ok (if a.tag = b.tag then 0 else if pyStrLt a.tag b.tag then -1 else 1) := by
  rcases a with ⟨ta, ka, da, sa, ca⟩
  rcases b with ⟨tb, kb, db, sb, cb⟩
  simp only at hk hsv
  unfold Rubintag.compare
  rw [if_neg (by simp [hk])]
  simp only
  rcases hsv with rfl | rfl
  · cases sb <;>
      · by_cases h1 : ta = tb <;> by_cases h2 : pyStrLt ta tb = true <;>
          simp [h1, h2]
  · cases sa <;>
      · by_cases h1 : ta = tb <;> by_cases h2 : pyStrLt ta tb = true <;>
          simp [h1, h2]

/-- Witness for C5 amended at two distinct alias tags. -/
theorem c5_witness :
    Rubintag.compare ⟨"aa", .ALIAS, "Aa", none, none⟩
      ⟨"bb", .ALIAS, "Bb", none, none⟩ = .ok (-1) := by
  have h := c5_amended_lexicographic ⟨"aa", .ALIAS, "Aa", none, none⟩
    ⟨"bb", .ALIAS, "Bb", none, none⟩ (by decide) (by decide) (by decide)
  rw [h]
  decide

/-- C6 counterexample: `RubinPartialTag.parse_tag` of `rubintag.py` performs
no lower-case check, so a tag with upper-case letters that still matches a
grammar rule is not `UNKNOWN`: `exp_FOO` is classified `EXPERIMENTAL`. -/
theorem c6_counterexample :
    hasUpper "exp_FOO" = true
    ∧ Rubintag.parse_tag "exp_FOO" =
        .ok ⟨"exp_FOO", .EXPERIMENTAL, "Experimental FOO", none, none⟩ := by
  decide

/-- C6 amended: the lower-case rule holds in `rubintagfuncs.parse_tag`,
whose first check classifies any tag containing an upper-case letter as
`UNKNOWN`, whatever its shape and whatever the alias set; the
`rubintag.py` parser has no such check (see the counterexample). -/
theorem c6_upper_unknown_in_funcs (tag override_name : String)
    (alias_tags : List String) (h : hasUpper tag = true) :
    Rubintagfuncs.parse_tag tag override_name alias_tags =
      .ok (.UNKNOWN, tag, none, none) := by
  have hne : tag ≠ "" := hasUpper_ne_empty tag h
  have hl : tag ≠ pyLower tag := Ne.symm (pyLower_ne tag h)
  simp only [Rubintagfuncs.parse_tag, Rubintagfuncs.parseTagGo, if_neg hne]
  rw [if_pos hl]

/-- Witness for C6 amended at the spec's own example tag. -/
theorem c6_witness :
    hasUpper "MiXeD_CaSe_TaG" = true
    ∧ Rubintagfuncs.parse_tag "MiXeD_CaSe_TaG" "" [] =
        .ok (.UNKNOWN, "MiXeD_CaSe_TaG", none, none) :=
  ⟨by decide, c6_upper_unknown_in_funcs "MiXeD_CaSe_TaG" "" [] (by decide)⟩

end Cachemachine

namespace Cachemachine

/-- C4 counterexample: a matching node with a single image-name group that
has a tag but no `repository@digest` name makes `inspect_node_caches` raise
`KubernetesImageHashNotFound` — the intersection does fail, it does not skip
the group. -/
theorem c4_counterexample :
    inspect_node_caches [] [⟨[], [⟨["repo:tag"]⟩]⟩] =
      .error (.imageHashNotFound "repo") := by
  decide

/-- One step of the checker's group loop keeps `repository`/`image_hash`
absent on a non-digest, cleanly-splitting name. -/
theorem checkStep_no_digest (tags0 : List String) (u : String)
    (hnd : pyIn "@sha256:" u = false)
    (hwf : u = "<none>@<none>" ∨ u = "<none>:<none>" ∨
      2 ≤ (pySplit1 ':' u).length) :
    ∃ tags1, checkStep (tags0, none, none) u = .ok (tags1, none, none) := by
  unfold checkStep
  by_cases hskip : u = "<none>@<none>" ∨ u = "<none>:<none>"
  · exact ⟨tags0, by rw [if_pos hskip]⟩
  · rw [if_neg hskip, if_neg (by simp [hnd])]
    rcases hwf with h1 | h1 | h1
    · exact absurd (Or.inl h1) hskip
    · exact absurd (Or.inr h1) hskip
    · rcases hsp : pySplit1 ':' u with _ | ⟨a, l⟩
      · rw [hsp] at h1; simp at h1
      · rcases l with _ | ⟨b, l'⟩
        · rw [hsp] at h1; simp at h1
        · exact ⟨if b ∈ tags0 then tags0 else tags0 ++ [b], by
            simp only [splitIndex1, hsp]
            rfl⟩

/-- A digest-less group whose names all split cleanly is parsed by
`CacheChecker.check` to collected tags with no repository and no hash. -/
theorem checkGroup_no_digest (names : List String)
    (hnd : ∀ u ∈ names, pyIn "@sha256:" u = false)
    (hwf : ∀ u ∈ names, u = "<none>@<none>" ∨ u = "<none>:<none>" ∨
      2 ≤ (pySplit1 ':' u).length) :
    ∃ tags, checkGroup names = .ok (tags, none, none) := by
  suffices h : ∀ tags0 : List String,
      ∃ tags, names.foldlM checkStep
        ((tags0, none, none) : List String × Option String × Option String) =
        .ok (tags, none, none) from h []
  induction names with
  | nil => intro tags0; exact ⟨tags0, rfl⟩
  | cons u us ih =>
    intro tags0
    have hnd' : ∀ v ∈ us, pyIn "@sha256:" v = false :=
      fun v hv => hnd v (List.mem_cons_of_mem u hv)
    have hwf' : ∀ v ∈ us, v = "<none>@<none>" ∨ v = "<none>:<none>" ∨
        2 ≤ (pySplit1 ':' v).length :=
      fun v hv => hwf v (List.mem_cons_of_mem u hv)
    obtain ⟨tags1, h1⟩ := checkStep_no_digest tags0 u
      (hnd u (List.mem_cons_self u us)) (hwf u (List.mem_cons_self u us))
    obtain ⟨tags2, h2⟩ := ih hnd' hwf' tags1
    refine ⟨tags2, ?_⟩
    rw [List.foldlM_cons, h1]
    exact h2

end Cachemachine

namespace Cachemachine

/-- A cleanly-splitting digest-less group contributes nothing at whatever
position it appears in the node's group list, and everything else is
unaffected. -/
theorem checkerNode_skip_aux (g : ContainerImage)
    (hnd : ∀ u ∈ g.names, pyIn "@sha256:" u = false)
    (hwf : ∀ u ∈ g.names, u = "<none>@<none>" ∨ u = "<none>:<none>" ∨
      2 ≤ (pySplit1 ':' u).length) :
    ∀ (pre post : List ContainerImage) (acc : List CachedDockerImage),
      (pre ++ g :: post).foldlM checkerNodeStep acc =
        (pre ++ post).foldlM checkerNodeStep acc := by
  intro pre
  induction pre with
  | nil =>
    intro post acc
    rw [List.nil_append, List.nil_append, List.foldlM_cons]
    obtain ⟨tags, hg⟩ := checkGroup_no_digest g.names hnd hwf
    have hstep : checkerNodeStep acc g = .ok acc := by
      unfold checkerNodeStep
      rw [hg]
      simp [truthy]
    rw [hstep]
    rfl
  | cons p pre' ih =>
    intro post acc
    rw [List.cons_append, List.cons_append, List.foldlM_cons, List.foldlM_cons]
    cases hp : checkerNodeStep acc p with
    | error e => rfl
    | ok acc' => exact ih post acc'

/-- C4 amended: the skip-don't-fail policy holds of `CacheChecker.check`,
not of `inspect_node_caches` (which raises, see the counterexample): in the
checker a per-node image-name group with no `repository@digest` name (and
whose names otherwise split cleanly) is dropped without failing — nothing is
logged — and the node's remaining groups contribute exactly as if the group
were absent. -/
theorem c4_checker_skips_digestless_group (labels : List (String × String))
    (pre post : List ContainerImage) (g : ContainerImage)
    (hnd : ∀ u ∈ g.names, pyIn "@sha256:" u = false)
    (hwf : ∀ u ∈ g.names, u = "<none>@<none>" ∨ u = "<none>:<none>" ∨
      2 ≤ (pySplit1 ':' u).length) :
    (∃ tags, checkGroup g.names = .ok (tags, none, none))
    ∧ checkerNodeImages ⟨labels, pre ++ g :: post⟩ =
        checkerNodeImages ⟨labels, pre ++ post⟩ :=
  ⟨checkGroup_no_digest g.names hnd hwf,
    checkerNode_skip_aux g hnd hwf pre post []⟩

/-- Witness for C4 amended: one digest-carrying group plus one digest-less
group; the checker yields exactly the digest-carrying group's image. -/
theorem c4_witness :
    ((∃ tags, checkGroup ["b:v2"] = .ok (tags, none, none))
      ∧ checkerNodeImages ⟨[], [⟨["a@sha256:h", "a:v1"]⟩] ++ ⟨["b:v2"]⟩ :: []⟩ =
          checkerNodeImages ⟨[], [⟨["a@sha256:h", "a:v1"]⟩] ++ []⟩) ∧
      checkerNodeImages ⟨[], [⟨["a@sha256:h", "a:v1"]⟩]⟩ =
        .ok [⟨"a:v1", "sha256:h", []⟩] :=
  ⟨c4_checker_skips_digestless_group [] [⟨["a@sha256:h", "a:v1"]⟩] []
      ⟨["b:v2"]⟩ (by decide) (by decide),
    by decide⟩

end Cachemachine

namespace Cachemachine

theorem lookupSKey_setSKey (m : List (String × String)) (k v k' : String) :
    lookupSKey (setSKey m k v) k' = if k' = k then some v else lookupSKey m k' := by
  induction m with
  | nil =>
    simp only [setSKey, lookupSKey]
    split_ifs with h1 h2 <;> simp_all [lookupSKey] <;> omega
  | cons p rest ih =>
    rcases p with ⟨pk, pv⟩
    simp only [setSKey]
    split_ifs with h1 <;> simp only [lookupSKey] <;>
      split_ifs with h2 h3 <;> simp_all [lookupSKey]

theorem mem_lookupSMap_addToSetMap (m : List (String × List String))
    (k v k' t : String) :
    t ∈ lookupSMap (addToSetMap m k v) k' ↔
      (k' = k ∧ t = v) ∨ t ∈ lookupSMap m k' := by
  induction m with
  | nil =>
    simp only [addToSetMap, lookupSMap]
    split_ifs with h1
    · simp_all [lookupSMap]
    · simp_all [lookupSMap]
      exact fun h => absurd h.symm h1
  | cons p rest ih =>
    rcases p with ⟨pk, vs⟩
    simp only [addToSetMap]
    split_ifs with h1 h2 <;> simp only [lookupSMap] <;>
      split_ifs with h3 h4 <;> simp_all [lookupSMap] <;> tauto

end Cachemachine

namespace Cachemachine

theorem find?_mem_isSome {ps : List (String × String)} {t h : String}
    (hm : (t, h) ∈ ps) : (ps.find? (fun p => p.1 == t)).isSome := by
  rw [List.find?_isSome]
  exact ⟨(t, h), hm, by simp⟩

theorem hashCacheStep_inv (ps : List (String × String)) (hc : RubinHashCache)
    (hinv : HashCacheInv ps hc) (tag hash : String) :
    HashCacheInv (ps ++ [(tag, hash)]) (hashCacheStep hc (tag, hash)) := by
  obtain ⟨hF, hI, hE⟩ := hinv
  have hfs : ∀ t : String, (ps ++ [(tag, hash)]).find? (fun p => p.1 == t) =
      (ps.find? (fun p => p.1 == t)).or
        (if tag = t then some (tag, hash) else none) := by
    intro t
    rw [List.find?_append]
    congr 1
    by_cases ht : tag = t
    · rw [List.find?_cons_of_pos _ (by simpa using ht), if_pos ht]
    · rw [List.find?_cons_of_neg _ (by simpa using ht), if_neg ht]
      rfl
  have hInew : ∀ t h,
      t ∈ lookupSMap (addToSetMap hc.hash_to_tags hash tag) h ↔
        (t, h) ∈ ps ++ [(tag, hash)] := by
    intro t h
    rw [mem_lookupSMap_addToSetMap, hI, List.mem_append, List.mem_singleton,
      Prod.mk.injEq]
    tauto
  cases heq : lookupSKey hc.tag_to_hash tag with
  | some h0 =>
    have hfps : ∃ q, ps.find? (fun p => p.1 == tag) = some q ∧ q.2 = h0 := by
      have hx := hF tag
      rw [heq] at hx
      cases hq : ps.find? (fun p => p.1 == tag) with
      | none => rw [hq] at hx; simp at hx
      | some q =>
        rw [hq] at hx
        simp only [Option.map_some'] at hx
        exact ⟨q, rfl, (Option.some.inj hx).symm⟩
    obtain ⟨q, hq, hq2⟩ := hfps
    have hF' : ∀ t, lookupSKey hc.tag_to_hash t =
        ((ps ++ [(tag, hash)]).find? (fun p => p.1 == t)).map (fun p => p.2) := by
      intro t
      rw [hfs t]
      cases hqt : ps.find? (fun p => p.1 == t) with
      | some r => rw [hF t, hqt, Option.or_some]
      | none =>
        rw [hF t, hqt]
        by_cases ht : tag = t
        · subst ht
          rw [hqt] at hq
          cases hq
        · rw [if_neg ht, Option.none_or]
    have hfind_tag : ((ps ++ [(tag, hash)]).find? (fun p => p.1 == tag)).map
        (fun p => p.2) = some h0 := by
      rw [hfs tag, hq, Option.or_some, Option.map_some', hq2]
    by_cases hne : h0 ≠ hash
    · have hstep : hashCacheStep hc (tag, hash) =
          { tag_to_hash := hc.tag_to_hash,
            hash_to_tags := addToSetMap hc.hash_to_tags hash tag,
            errors := hc.errors ++ [(tag, hash)] } := by
        simp [hashCacheStep, heq, hne]
      rw [hstep]
      refine ⟨hF', hInew, ?_⟩
      intro t h
      simp only [List.mem_append, List.mem_singleton, Prod.mk.injEq]
      rw [hE t h]
      by_cases ht : t = tag
      · subst ht
        rw [hfind_tag, hq, Option.map_some', hq2]
        have hx1 : h = hash → h0 ≠ h := fun hh => hh ▸ hne
        simp only [ne_eq, Option.some.injEq]
        constructor
        · rintro (⟨hm, hnh⟩ | ⟨-, rfl⟩)
          · exact ⟨Or.inl hm, hnh⟩
          · exact ⟨Or.inr ⟨trivial, rfl⟩, hx1 rfl⟩
        · rintro ⟨hm | ⟨-, rfl⟩, hnh⟩
          · exact Or.inl ⟨hm, hnh⟩
          · exact Or.inr ⟨trivial, rfl⟩
      · rw [hfs t, if_neg (fun hh => ht hh.symm), Option.or_none]
        constructor
        · rintro (⟨hm, hnh⟩ | ⟨rfl, -⟩)
          · exact ⟨Or.inl hm, hnh⟩
          · exact absurd rfl ht
        · rintro ⟨hm | ⟨rfl, -⟩, hnh⟩
          · exact Or.inl ⟨hm, hnh⟩
          · exact absurd rfl ht
    · push_neg at hne
      subst hne
      have hstep : hashCacheStep hc (tag, h0) =
          { tag_to_hash := hc.tag_to_hash,
            hash_to_tags := addToSetMap hc.hash_to_tags h0 tag,
            errors := hc.errors } := by
        simp [hashCacheStep, heq]
      rw [hstep]
      refine ⟨hF', hInew, ?_⟩
      intro t h
      simp only [List.mem_append, List.mem_singleton, Prod.mk.injEq]
      rw [hE t h]
      by_cases ht : t = tag
      · subst ht
        rw [hfind_tag, hq, Option.map_some', hq2]
        simp only [ne_eq, Option.some.injEq]
        constructor
        · rintro ⟨hm, hnh⟩
          exact ⟨Or.inl hm, hnh⟩
        · rintro ⟨hm | ⟨-, rfl⟩, hnh⟩
          · exact ⟨hm, hnh⟩
          · exact absurd rfl hnh
      · rw [hfs t, if_neg (fun hh => ht hh.symm), Option.or_none]
        constructor
        · rintro ⟨hm, hnh⟩
          exact ⟨Or.inl hm, hnh⟩
        · rintro ⟨hm | ⟨rfl, -⟩, hnh⟩
          · exact ⟨hm, hnh⟩
          · exact absurd rfl ht
  | none =>
    have hfnone : ps.find? (fun p => p.1 == tag) = none := by
      have hx := hF tag
      rw [heq] at hx
      cases hq : ps.find? (fun p => p.1 == tag) with
      | none => rfl
      | some q => rw [hq] at hx; simp at hx
    have hstep : hashCacheStep hc (tag, hash) =
        { tag_to_hash := setSKey hc.tag_to_hash tag hash,
          hash_to_tags := addToSetMap hc.hash_to_tags hash tag,
          errors := hc.errors } := by
      simp [hashCacheStep, heq]
    rw [hstep]
    refine ⟨?_, hInew, ?_⟩
    · intro t
      rw [lookupSKey_setSKey, hfs t]
      by_cases ht : t = tag
      · subst ht
        rw [if_pos rfl, hfnone, if_pos rfl, Option.none_or, Option.map_some']
      · rw [if_neg ht, if_neg (fun hh => ht hh.symm), Option.or_none, hF t]
    · intro t h
      simp only [List.mem_append, List.mem_singleton, Prod.mk.injEq]
      rw [hE t h]
      by_cases ht : t = tag
      · subst ht
        have hnm : (t, h) ∉ ps := by
          intro hm
          have hs := find?_mem_isSome hm
          rw [hfnone] at hs
          simp at hs
        rw [hfs t, hfnone, Option.none_or, if_pos rfl, Option.map_some']
        simp only [ne_eq, Option.some.injEq]
        constructor
        · rintro ⟨hm, -⟩
          exact absurd hm hnm
        · rintro ⟨hm | ⟨-, rfl⟩, hnh⟩
          · exact absurd hm hnm
          · exact absurd rfl hnh
      · rw [hfs t, if_neg (fun hh => ht hh.symm), Option.or_none]
        constructor
        · rintro ⟨hm, hnh⟩
          exact ⟨Or.inl hm, hnh⟩
        · rintro ⟨hm | ⟨rfl, -⟩, hnh⟩
          · exact ⟨hm, hnh⟩
          · exact absurd rfl ht

end Cachemachine

namespace Cachemachine

theorem hashCacheInv_init : HashCacheInv [] ⟨[], [], []⟩ :=
  ⟨fun _ => rfl, fun t h => by simp [lookupSMap], fun t h => by simp⟩

theorem foldl_hashCacheSteps (ps : List (String × String)) :
    ∀ (qs : List (String × String)) (hc : RubinHashCache),
      HashCacheInv qs hc → HashCacheInv (qs ++ ps) (ps.foldl hashCacheStep hc) := by
  induction ps with
  | nil => intro qs hc h; simpa using h
  | cons p ps' ih =>
    intro qs hc h
    rcases p with ⟨tag, hash⟩
    rw [List.foldl_cons]
    have h2 := ih (qs ++ [(tag, hash)]) _ (hashCacheStep_inv qs hc h tag hash)
    rw [List.append_assoc] at h2
    simpa using h2

theorem foldl_entry_flat (l : List CachedDockerImage) :
    ∀ init : RubinHashCache,
      l.foldl (fun hc entry => (entryPairs entry).foldl hashCacheStep hc) init =
        (l.flatMap entryPairs).foldl hashCacheStep init := by
  induction l with
  | nil => intro init; rfl
  | cons e l' ih =>
    intro init
    rw [List.foldl_cons, List.flatMap_cons, List.foldl_append, ih]

/-- C10: building the tag/digest maps from a common cache, the first digest
encountered in cache-processing order wins for each tag in the forward map,
a later pair with a different digest only appends to the error log, and the
inverse map records each tag under every digest it appeared with
(`HashCacheInv` spells the three parts out). -/
theorem c10_hash_cache_first_digest_wins (cache : List CachedDockerImage) :
    HashCacheInv (cachePairs cache) (from_cache cache) := by
  have h := foldl_hashCacheSteps (cachePairs cache) [] ⟨[], [], []⟩ hashCacheInv_init
  rw [List.nil_append] at h
  unfold from_cache
  rw [foldl_entry_flat]
  exact h

end Cachemachine

namespace Cachemachine

theorem takeDigits_spec {cs : List Char} {pr : String × List Char}
    (h : takeDigits cs = some pr) : DigitStr pr.1 := by
  unfold takeDigits at h
  by_cases he : (cs.takeWhile Char.isDigit).isEmpty
  · rw [if_pos he] at h
    cases h
  · rw [if_neg he] at h
    obtain rfl := (Option.some.inj h).symm
    refine ⟨?_, List.all_takeWhile⟩
    intro hx
    rw [← List.isEmpty_iff] at hx
    exact he hx

theorem lit_spec {c : Char} {cs r : List Char} (h : lit c cs = some r) :
    cs = c :: r := by
  cases cs with
  | nil => cases h
  | cons d rest =>
    simp only [lit] at h
    by_cases hd : d = c
    · rw [if_pos hd] at h
      rw [hd, Option.some.inj h]
    · rw [if_neg hd] at h
      cases h

theorem digitOpt_some {s : String} (h : DigitStr s) : DigitOpt (some s) :=
  fun _ hs => (Option.some.inj hs) ▸ h

theorem digitOpt_none : DigitOpt none :=
  fun _ hs => by cases hs

theorem releaseCore_digits {cs : List Char}
    {q : String × String × String × List Char}
    (h : releaseCore cs = some q) :
    DigitStr q.1 ∧ DigitStr q.2.1 ∧ DigitStr q.2.2.1 := by
  simp only [releaseCore, Option.bind_eq_bind, Option.bind_eq_some, Option.pure_def,
    Option.some.injEq] at h
  obtain ⟨a, -, p1, h1, b, -, p2, h2, c, -, p3, h3, hq⟩ := h
  obtain rfl := hq.symm
  exact ⟨takeDigits_spec h1, takeDigits_spec h2, takeDigits_spec h3⟩

theorem rcCore_digits {cs : List Char}
    {q : String × String × String × String × List Char}
    (h : rcCore cs = some q) :
    DigitStr q.1 ∧ DigitStr q.2.1 ∧ DigitStr q.2.2.1 ∧ DigitStr q.2.2.2.1 := by
  simp only [rcCore, Option.bind_eq_bind, Option.bind_eq_some, Option.pure_def,
    Option.some.injEq] at h
  obtain ⟨a, ha, b, -, c, -, d, -, p, hp, hq⟩ := h
  obtain rfl := hq.symm
  obtain ⟨d1, d2, d3⟩ := releaseCore_digits ha
  exact ⟨d1, d2, d3, takeDigits_spec hp⟩

theorem weeklyCore_digits {cs : List Char} {q : String × String × List Char}
    (h : weeklyCore cs = some q) : DigitStr q.1 ∧ DigitStr q.2.1 := by
  simp only [weeklyCore, Option.bind_eq_bind, Option.bind_eq_some, Option.pure_def,
    Option.some.injEq] at h
  obtain ⟨a, -, b, -, p1, h1, c, -, p2, h2, hq⟩ := h
  obtain rfl := hq.symm
  exact ⟨takeDigits_spec h1, takeDigits_spec h2⟩

theorem dailyCore_digits {cs : List Char}
    {q : String × String × String × List Char}
    (h : dailyCore cs = some q) :
    DigitStr q.1 ∧ DigitStr q.2.1 ∧ DigitStr q.2.2.1 := by
  simp only [dailyCore, Option.bind_eq_bind, Option.bind_eq_some, Option.pure_def,
    Option.some.injEq] at h
  obtain ⟨a, -, b, -, p1, h1, c, -, p2, h2, d, -, p3, h3, hq⟩ := h
  obtain rfl := hq.symm
  exact ⟨takeDigits_spec h1, takeDigits_spec h2, takeDigits_spec h3⟩

theorem cyclePartA_digits {cs : List Char}
    {q : String × String × String × List Char}
    (h : cyclePartA cs = some q) : DigitStr q.2.1 ∧ DigitStr q.2.2.1 := by
  simp only [cyclePartA, Option.bind_eq_bind, Option.bind_eq_some, Option.pure_def,
    Option.some.injEq, Prod.mk.injEq] at h
  obtain ⟨a, -, a1, -, h⟩ := h
  split at h
  case _ cy cs1 hcy =>
    simp only [Option.bind_eq_some, Option.some.injEq] at h
    obtain ⟨cs2, -, p, hp, hq⟩ := h
    obtain rfl := hq.symm
    exact ⟨takeDigits_spec hcy, takeDigits_spec hp⟩
  case _ hnone =>
    split at h
    case _ cs1 =>
      simp only [Option.bind_eq_some, Option.some.injEq] at h
      obtain ⟨p1, hp1, cs3, -, p2, hp2, hq⟩ := h
      obtain rfl := hq.symm
      exact ⟨takeDigits_spec hp1, takeDigits_spec hp2⟩
    case _ x hx =>
      cases h

end Cachemachine

namespace Cachemachine

theorem restPart_spec {cs : List Char} {r : String} (h : restPart cs = some r) :
    cs = '_' :: r.data := by
  simp only [restPart, Option.bind_eq_bind, Option.bind_eq_some, Option.pure_def,
    Option.some.injEq] at h
  obtain ⟨a, ha, hq⟩ := h
  rw [lit_spec ha, ← hq]

theorem matchRcCycleRestA_digits {t : String} {g : Groups}
    (h : matchRcCycleRestA t = some g) : DigitGroups g := by
  simp only [matchRcCycleRestA, Option.bind_eq_bind, Option.bind_eq_some,
    Option.pure_def, Option.some.injEq] at h
  obtain ⟨a, ha, b, hb, r, -, hq⟩ := h
  obtain rfl := hq.symm
  obtain ⟨d1, d2, d3, -⟩ := rcCore_digits ha
  obtain ⟨c1, c2⟩ := cyclePartA_digits hb
  exact ⟨digitOpt_some d1, digitOpt_some d2, digitOpt_some d3, digitOpt_none,
    digitOpt_none, digitOpt_none, digitOpt_none, digitOpt_some c1, digitOpt_some c2⟩

theorem matchRcCycleA_digits {t : String} {g : Groups}
    (h : matchRcCycleA t = some g) : DigitGroups g := by
  simp only [matchRcCycleA, Option.bind_eq_bind, Option.bind_eq_some,
    Option.pure_def, Option.some.injEq] at h
  obtain ⟨a, ha, b, hb, u, -, hq⟩ := h
  obtain rfl := hq.symm
  obtain ⟨d1, d2, d3, -⟩ := rcCore_digits ha
  obtain ⟨c1, c2⟩ := cyclePartA_digits hb
  exact ⟨digitOpt_some d1, digitOpt_some d2, digitOpt_some d3, digitOpt_none,
    digitOpt_none, digitOpt_none, digitOpt_none, digitOpt_some c1, digitOpt_some c2⟩

theorem matchRcRest_digits {t : String} {g : Groups}
    (h : matchRcRest t = some g) : DigitGroups g := by
  simp only [matchRcRest, Option.bind_eq_bind, Option.bind_eq_some,
    Option.pure_def, Option.some.injEq] at h
  obtain ⟨a, ha, r, -, hq⟩ := h
  obtain rfl := hq.symm
  obtain ⟨d1, d2, d3, -⟩ := rcCore_digits ha
  exact ⟨digitOpt_some d1, digitOpt_some d2, digitOpt_some d3, digitOpt_none,
    digitOpt_none, digitOpt_none, digitOpt_none, digitOpt_none, digitOpt_none⟩

theorem matchRc_digits {t : String} {g : Groups}
    (h : matchRc t = some g) : DigitGroups g := by
  simp only [matchRc, Option.bind_eq_bind, Option.bind_eq_some,
    Option.pure_def, Option.some.injEq] at h
  obtain ⟨a, ha, u, -, hq⟩ := h
  obtain rfl := hq.symm
  obtain ⟨d1, d2, d3, -⟩ := rcCore_digits ha
  exact ⟨digitOpt_some d1, digitOpt_some d2, digitOpt_some d3, digitOpt_none,
    digitOpt_none, digitOpt_none, digitOpt_none, digitOpt_none, digitOpt_none⟩

theorem matchReleaseCycleRestA_digits {t : String} {g : Groups}
    (h : matchReleaseCycleRestA t = some g) : DigitGroups g := by
  simp only [matchReleaseCycleRestA, Option.bind_eq_bind, Option.bind_eq_some,
    Option.pure_def, Option.some.injEq] at h
  obtain ⟨a, ha, b, hb, r, -, hq⟩ := h
  obtain rfl := hq.symm
  obtain ⟨d1, d2, d3⟩ := releaseCore_digits ha
  obtain ⟨c1, c2⟩ := cyclePartA_digits hb
  exact ⟨digitOpt_some d1, digitOpt_some d2, digitOpt_some d3, digitOpt_none,
    digitOpt_none, digitOpt_none, digitOpt_none, digitOpt_some c1, digitOpt_some c2⟩

theorem matchReleaseCycleA_digits {t : String} {g : Groups}
    (h : matchReleaseCycleA t = some g) : DigitGroups g := by
  simp only [matchReleaseCycleA, Option.bind_eq_bind, Option.bind_eq_some,
    Option.pure_def, Option.some.injEq] at h
  obtain ⟨a, ha, b, hb, u, -, hq⟩ := h
  obtain rfl := hq.symm
  obtain ⟨d1, d2, d3⟩ := releaseCore_digits ha
  obtain ⟨c1, c2⟩ := cyclePartA_digits hb
  exact ⟨digitOpt_some d1, digitOpt_some d2, digitOpt_some d3, digitOpt_none,
    digitOpt_none, digitOpt_none, digitOpt_none, digitOpt_some c1, digitOpt_some c2⟩

theorem matchReleaseRest_digits {t : String} {g : Groups}
    (h : matchReleaseRest t = some g) : DigitGroups g := by
  simp only [matchReleaseRest, Option.bind_eq_bind, Option.bind_eq_some,
    Option.pure_def, Option.some.injEq] at h
  obtain ⟨a, ha, r, -, hq⟩ := h
  obtain rfl := hq.symm
  obtain ⟨d1, d2, d3⟩ := releaseCore_digits ha
  exact ⟨digitOpt_some d1, digitOpt_some d2, digitOpt_some d3, digitOpt_none,
    digitOpt_none, digitOpt_none, digitOpt_none, digitOpt_none, digitOpt_none⟩

theorem matchRelease_digits {t : String} {g : Groups}
    (h : matchRelease t = some g) : DigitGroups g := by
  simp only [matchRelease, Option.bind_eq_bind, Option.bind_eq_some,
    Option.pure_def, Option.some.injEq] at h
  obtain ⟨a, ha, u, -, hq⟩ := h
  obtain rfl := hq.symm
  obtain ⟨d1, d2, d3⟩ := releaseCore_digits ha
  exact ⟨digitOpt_some d1, digitOpt_some d2, digitOpt_some d3, digitOpt_none,
    digitOpt_none, digitOpt_none, digitOpt_none, digitOpt_none, digitOpt_none⟩

theorem matchWeeklyCycleRestA_digits {t : String} {g : Groups}
    (h : matchWeeklyCycleRestA t = some g) : DigitGroups g := by
  simp only [matchWeeklyCycleRestA, Option.bind_eq_bind, Option.bind_eq_some,
    Option.pure_def, Option.some.injEq] at h
  obtain ⟨a, ha, b, hb, r, -, hq⟩ := h
  obtain rfl := hq.symm
  obtain ⟨d1, d2⟩ := weeklyCore_digits ha
  obtain ⟨c1, c2⟩ := cyclePartA_digits hb
  exact ⟨digitOpt_none, digitOpt_none, digitOpt_none, digitOpt_some d1,
    digitOpt_some d2, digitOpt_none, digitOpt_none, digitOpt_some c1, digitOpt_some c2⟩

theorem matchWeeklyCycleA_digits {t : String} {g : Groups}
    (h : matchWeeklyCycleA t = some g) : DigitGroups g := by
  simp only [matchWeeklyCycleA, Option.bind_eq_bind, Option.bind_eq_some,
    Option.pure_def, Option.some.injEq] at h
  obtain ⟨a, ha, b, hb, u, -, hq⟩ := h
  obtain rfl := hq.symm
  obtain ⟨d1, d2⟩ := weeklyCore_digits ha
  obtain ⟨c1, c2⟩ := cyclePartA_digits hb
  exact ⟨digitOpt_none, digitOpt_none, digitOpt_none, digitOpt_some d1,
    digitOpt_some d2, digitOpt_none, digitOpt_none, digitOpt_some c1, digitOpt_some c2⟩

theorem matchWeeklyRest_digits {t : String} {g : Groups}
    (h : matchWeeklyRest t = some g) : DigitGroups g := by
  simp only [matchWeeklyRest, Option.bind_eq_bind, Option.bind_eq_some,
    Option.pure_def, Option.some.injEq] at h
  obtain ⟨a, ha, r, -, hq⟩ := h
  obtain rfl := hq.symm
  obtain ⟨d1, d2⟩ := weeklyCore_digits ha
  exact ⟨digitOpt_none, digitOpt_none, digitOpt_none, digitOpt_some d1,
    digitOpt_some d2, digitOpt_none, digitOpt_none, digitOpt_none, digitOpt_none⟩

theorem matchWeekly_digits {t : String} {g : Groups}
    (h : matchWeekly t = some g) : DigitGroups g := by
  simp only [matchWeekly, Option.bind_eq_bind, Option.bind_eq_some,
    Option.pure_def, Option.some.injEq] at h
  obtain ⟨a, ha, u, -, hq⟩ := h
  obtain rfl := hq.symm
  obtain ⟨d1, d2⟩ := weeklyCore_digits ha
  exact ⟨digitOpt_none, digitOpt_none, digitOpt_none, digitOpt_some d1,
    digitOpt_some d2, digitOpt_none, digitOpt_none, digitOpt_none, digitOpt_none⟩

theorem matchDailyCycleRestA_digits {t : String} {g : Groups}
    (h : matchDailyCycleRestA t = some g) : DigitGroups g := by
  simp only [matchDailyCycleRestA, Option.bind_eq_bind, Option.bind_eq_some,
    Option.pure_def, Option.some.injEq] at h
  obtain ⟨a, ha, b, hb, r, -, hq⟩ := h
  obtain rfl := hq.symm
  obtain ⟨d1, d2, d3⟩ := dailyCore_digits ha
  obtain ⟨c1, c2⟩ := cyclePartA_digits hb
  exact ⟨digitOpt_none, digitOpt_none, digitOpt_none, digitOpt_some d1,
    digitOpt_none, digitOpt_some d2, digitOpt_some d3, digitOpt_some c1, digitOpt_some c2⟩

theorem matchDailyCycleA_digits {t : String} {g : Groups}
    (h : matchDailyCycleA t = some g) : DigitGroups g := by
  simp only [matchDailyCycleA, Option.bind_eq_bind, Option.bind_eq_some,
    Option.pure_def, Option.some.injEq] at h
  obtain ⟨a, ha, b, hb, u, -, hq⟩ := h
  obtain rfl := hq.symm
  obtain ⟨d1, d2, d3⟩ := dailyCore_digits ha
  obtain ⟨c1, c2⟩ := cyclePartA_digits hb
  exact ⟨digitOpt_none, digitOpt_none, digitOpt_none, digitOpt_some d1,
    digitOpt_none, digitOpt_some d2, digitOpt_some d3, digitOpt_some c1, digitOpt_some c2⟩

theorem matchDailyRest_digits {t : String} {g : Groups}
    (h : matchDailyRest t = some g) : DigitGroups g := by
  simp only [matchDailyRest, Option.bind_eq_bind, Option.bind_eq_some,
    Option.pure_def, Option.some.injEq] at h
  obtain ⟨a, ha, r, -, hq⟩ := h
  obtain rfl := hq.symm
  obtain ⟨d1, d2, d3⟩ := dailyCore_digits ha
  exact ⟨digitOpt_none, digitOpt_none, digitOpt_none, digitOpt_some d1,
    digitOpt_none, digitOpt_some d2, digitOpt_some d3, digitOpt_none, digitOpt_none⟩

theorem matchDaily_digits {t : String} {g : Groups}
    (h : matchDaily t = some g) : DigitGroups g := by
  simp only [matchDaily, Option.bind_eq_bind, Option.bind_eq_some,
    Option.pure_def, Option.some.injEq] at h
  obtain ⟨a, ha, u, -, hq⟩ := h
  obtain rfl := hq.symm
  obtain ⟨d1, d2, d3⟩ := dailyCore_digits ha
  exact ⟨digitOpt_none, digitOpt_none, digitOpt_none, digitOpt_some d1,
    digitOpt_none, digitOpt_some d2, digitOpt_some d3, digitOpt_none, digitOpt_none⟩

theorem matchLegacyRelease_digits {t : String} {g : Groups}
    (h : matchLegacyRelease t = some g) : DigitGroups g := by
  unfold matchLegacyRelease at h
  split at h
  case _ a b c =>
    split at h
    case _ hcond =>
      obtain rfl := (Option.some.inj h).symm
      simp only [Bool.and_eq_true] at hcond
      obtain ⟨⟨hda, hdb⟩, hdc⟩ := hcond
      refine ⟨digitOpt_some ⟨by simp, ?_⟩, digitOpt_some ⟨by simp, ?_⟩,
        digitOpt_none, digitOpt_none, digitOpt_none, digitOpt_none,
        digitOpt_none, digitOpt_none, digitOpt_none⟩
      · simp [hda, hdb]
      · simp [hdc]
    case _ => cases h
  case _ => cases h

theorem matchExp_spec {t : String} {g : Groups} (h : matchExp t = some g) :
    DigitGroups g ∧ ∃ r, g.rest = some r ∧
      t.data = 'e' :: 'x' :: 'p' :: '_' :: r.data := by
  unfold matchExp at h
  split at h
  case _ cs heq =>
    simp only [Option.bind_eq_bind, Option.bind_eq_some, Option.pure_def,
      Option.some.injEq] at h
    obtain ⟨r, hr, hq⟩ := h
    obtain rfl := hq.symm
    refine ⟨⟨digitOpt_none, digitOpt_none, digitOpt_none, digitOpt_none,
      digitOpt_none, digitOpt_none, digitOpt_none, digitOpt_none, digitOpt_none⟩, r, rfl, ?_⟩
    rw [heq, restPart_spec hr]
  case _ => cases h

theorem findTagMatch_mem {table : List (RubinTagType × (String → Option Groups))}
    {t : String} {ty : RubinTagType} {g : Groups}
    (h : findTagMatch table t = some (ty, g)) :
    ∃ m, (ty, m) ∈ table ∧ m t = some g := by
  induction table with
  | nil => cases h
  | cons e rest ih =>
    rcases e with ⟨ty', m'⟩
    simp only [findTagMatch] at h
    split at h
    case _ g' hg =>
      obtain ⟨rfl, rfl⟩ := Prod.mk.inj (Option.some.inj h)
      exact ⟨m', List.mem_cons_self _ _, hg⟩
    case _ =>
      obtain ⟨m, hm, hmt⟩ := ih h
      exact ⟨m, List.mem_cons_of_mem _ hm, hmt⟩

/-- Every grammar match yields digit-run numeric groups, and an experimental
match exposes the `exp_` prefix structure needed for the recursion bound. -/
theorem tagtypeMatch_spec {t : String} {ty : RubinTagType} {g : Groups}
    (h : tagtypeMatch t = some (ty, g)) :
    DigitGroups g ∧ (ty = RubinTagType.EXPERIMENTAL →
      ∃ r, g.rest = some r ∧ t.data = 'e' :: 'x' :: 'p' :: '_' :: r.data) := by
  obtain ⟨m, hm, hmt⟩ := findTagMatch_mem h
  simp only [TAGTYPE_REGEXPS, List.mem_cons, List.not_mem_nil, or_false,
    Prod.mk.injEq] at hm
  rcases hm with ⟨rfl, rfl⟩ | hm
  · exact ⟨matchRcCycleRestA_digits hmt, fun hx => by cases hx⟩
  rcases hm with ⟨rfl, rfl⟩ | hm
  · exact ⟨matchRcCycleA_digits hmt, fun hx => by cases hx⟩
  rcases hm with ⟨rfl, rfl⟩ | hm
  · exact ⟨matchRcRest_digits hmt, fun hx => by cases hx⟩
  rcases hm with ⟨rfl, rfl⟩ | hm
  · exact ⟨matchRc_digits hmt, fun hx => by cases hx⟩
  rcases hm with ⟨rfl, rfl⟩ | hm
  · exact ⟨matchReleaseCycleRestA_digits hmt, fun hx => by cases hx⟩
  rcases hm with ⟨rfl, rfl⟩ | hm
  · exact ⟨matchReleaseCycleA_digits hmt, fun hx => by cases hx⟩
  rcases hm with ⟨rfl, rfl⟩ | hm
  · exact ⟨matchReleaseRest_digits hmt, fun hx => by cases hx⟩
  rcases hm with ⟨rfl, rfl⟩ | hm
  · exact ⟨matchRelease_digits hmt, fun hx => by cases hx⟩
  rcases hm with ⟨rfl, rfl⟩ | hm
  · exact ⟨matchLegacyRelease_digits hmt, fun hx => by cases hx⟩
  rcases hm with ⟨rfl, rfl⟩ | hm
  · exact ⟨matchWeeklyCycleRestA_digits hmt, fun hx => by cases hx⟩
  rcases hm with ⟨rfl, rfl⟩ | hm
  · exact ⟨matchWeeklyCycleA_digits hmt, fun hx => by cases hx⟩
  rcases hm with ⟨rfl, rfl⟩ | hm
  · exact ⟨matchWeeklyRest_digits hmt, fun hx => by cases hx⟩
  rcases hm with ⟨rfl, rfl⟩ | hm
  · exact ⟨matchWeekly_digits hmt, fun hx => by cases hx⟩
  rcases hm with ⟨rfl, rfl⟩ | hm
  · exact ⟨matchDailyCycleRestA_digits hmt, fun hx => by cases hx⟩
  rcases hm with ⟨rfl, rfl⟩ | hm
  · exact ⟨matchDailyCycleA_digits hmt, fun hx => by cases hx⟩
  rcases hm with ⟨rfl, rfl⟩ | hm
  · exact ⟨matchDailyRest_digits hmt, fun hx => by cases hx⟩
  rcases hm with ⟨rfl, rfl⟩ | hm
  · exact ⟨matchDaily_digits hmt, fun hx => by cases hx⟩
  obtain ⟨rfl, rfl⟩ := hm
  obtain ⟨hd, r, hr, hdata⟩ := matchExp_spec hmt
  exact ⟨hd, fun _ => ⟨r, hr, hdata⟩⟩

end Cachemachine

namespace Cachemachine

theorem except_bind_ok {ε α β : Type} (a : α) (f : α → Except ε β) :
    (Except.ok a >>= f : Except ε β) = f a := rfl

theorem pyInt?_digit {s : String} (h : DigitStr s) :
    pyInt? s = some ((digitsToNat s.data : Int)) := by
  unfold pyInt?
  rw [if_pos ⟨h.1, h.2⟩]

theorem maybe_int_digit_ok {o : Option String} (h : DigitOpt o) :
    ∃ v, Rubintag.maybe_int o = .ok v := by
  cases o with
  | none => exact ⟨none, rfl⟩
  | some s =>
    exact ⟨some ((digitsToNat s.data : Int)), by
      simp [Rubintag.maybe_int, pyInt?_digit (h s rfl)]⟩

theorem maybe_int_patch_ok {o : Option String} (h : DigitOpt o) :
    ∃ v, Rubintag.maybe_int (some (o.getD "0")) = .ok v := by
  cases o with
  | none => exact ⟨some 0, by decide⟩
  | some s =>
    exact ⟨some ((digitsToNat s.data : Int)), by
      simp [Rubintag.maybe_int, Option.getD, pyInt?_digit (h s rfl)]⟩

set_option maxHeartbeats 1600000 in
theorem extract_metadata_ok (rec : String → Except PyErr RubinPartialTag)
    (g : Groups) (tag : String) (ty : RubinTagType)
    (hd : DigitGroups g) (hty : ty ≠ RubinTagType.EXPERIMENTAL) :
    ∃ out, Rubintag.extract_metadata rec g tag ty = .ok out := by
  obtain ⟨hma, hmi, hpa, hyr, hwk, hmo, hdy, hcy, -⟩ := hd
  obtain ⟨vma, ema⟩ := maybe_int_digit_ok hma
  obtain ⟨vmi, emi⟩ := maybe_int_digit_ok hmi
  obtain ⟨vpa, epa⟩ := maybe_int_patch_ok hpa
  obtain ⟨vyr, eyr⟩ := maybe_int_digit_ok hyr
  obtain ⟨vwk, ewk⟩ := maybe_int_digit_ok hwk
  obtain ⟨vmo, emo⟩ := maybe_int_digit_ok hmo
  obtain ⟨vdy, edy⟩ := maybe_int_digit_ok hdy
  obtain ⟨vcy, ecy⟩ := maybe_int_digit_ok hcy
  cases ty with
  | EXPERIMENTAL => exact absurd rfl hty
  | UNKNOWN => exact ⟨_, rfl⟩
  | RELEASE =>
    simp only [Rubintag.extract_metadata, ema, emi, epa, ecy, except_bind_ok]
    split_ifs <;> try exact ⟨_, rfl⟩
    all_goals tauto
  | RELEASE_CANDIDATE =>
    simp only [Rubintag.extract_metadata, ema, emi, epa, ecy, except_bind_ok]
    split_ifs <;> try exact ⟨_, rfl⟩
    all_goals tauto
  | WEEKLY =>
    simp only [Rubintag.extract_metadata, eyr, ewk, ecy, except_bind_ok]
    split_ifs <;> try exact ⟨_, rfl⟩
    all_goals tauto
  | DAILY =>
    simp only [Rubintag.extract_metadata, eyr, emo, edy, ecy, except_bind_ok]
    split_ifs <;> try exact ⟨_, rfl⟩
    all_goals tauto
  | ALIAS =>
    simp only [Rubintag.extract_metadata, eyr, emo, edy, ecy, except_bind_ok]
    split_ifs <;> try exact ⟨_, rfl⟩
    all_goals tauto

end Cachemachine

namespace Cachemachine

/-- Totality of the tag parser: the recursion bound of `parseTagGo` is never
hit and no `int` conversion ever fails, for any fuel exceeding the tag
length. -/
theorem parseTagGo_total (fuel : Nat) : ∀ tag : String, tag.length < fuel →
    ∃ r, Rubintag.parseTagGo fuel tag = .ok r ∧
      r.tag = (if tag = "" then DOCKER_DEFAULT_TAG else tag) := by
  induction fuel with
  | zero => intro tag h; omega
  | succ fuel ih =>
    intro tag hlen
    by_cases h0 : tag = ""
    · subst h0
      have hnone : tagtypeMatch DOCKER_DEFAULT_TAG = none := by decide
      simp only [Rubintag.parseTagGo, if_pos rfl, hnone]
      exact ⟨_, rfl, by simp⟩
    · simp only [Rubintag.parseTagGo, if_neg h0]
      cases hm : tagtypeMatch tag with
      | none => exact ⟨_, rfl, rfl⟩
      | some tg =>
        rcases tg with ⟨ty, g⟩
        obtain ⟨hd, hexp⟩ := tagtypeMatch_spec hm
        by_cases hty : ty = RubinTagType.EXPERIMENTAL
        · subst hty
          obtain ⟨r, hrest, hdata⟩ := hexp rfl
          have hrlen : r.length < fuel := by
            have hc := congrArg List.length hdata
            simp only [List.length_cons] at hc
            have hsl : tag.length = tag.data.length := rfl
            have hsr : r.length = r.data.length := rfl
            omega
          obtain ⟨rr, hrr, -⟩ := ih r hrlen
          have hex : Rubintag.extract_metadata (Rubintag.parseTagGo fuel) g tag
              RubinTagType.EXPERIMENTAL =
              .ok ("Experimental " ++ rr.display_name, none, none) := by
            simp only [Rubintag.extract_metadata, hrest, hrr, except_bind_ok]
          simp only [hm, hex]
          exact ⟨_, rfl, rfl⟩
        · obtain ⟨out, hout⟩ :=
            extract_metadata_ok (Rubintag.parseTagGo fuel) g tag ty hd hty
          rcases out with ⟨name, sv, cy⟩
          simp only [hm, hout]
          exact ⟨_, rfl, rfl⟩

end Cachemachine

namespace Cachemachine

theorem parse_tag_total (tag : String) :
    ∃ r, Rubintag.parse_tag tag = .ok r ∧
      r.tag = (if tag = "" then DOCKER_DEFAULT_TAG else tag) :=
  parseTagGo_total (tag.length + 1) tag (Nat.lt_succ_self _)

/-- C7 counterexample: an upper-case member of the alias set is classified
`UNKNOWN`, not `ALIAS`, by `rubintagfuncs.parse_tag` — the lower-case check
runs before the alias check. -/
theorem c7_counterexample :
    ("A" ∈ ["A"]) ∧
      Rubintagfuncs.parse_tag "A" "" ["A"] = .ok (.UNKNOWN, "A", none, none) := by
  decide

/-- C7 amended: alias membership wins over the grammar.  In
`RubinTag.from_tag` every member of the alias set (empty tag aside) is
classified `ALIAS` with the title-cased display name, whatever the grammar
says; in `rubintagfuncs.parse_tag` the same holds provided the tag is also
lower-case (the counterexample shows the lower-case check runs first
there). -/
theorem c7_alias_wins (tag : String) (alias_tags : List String)
    (hmem : tag ∈ alias_tags) (hne : tag ≠ "") :
    (∃ rt : Rubintag.RubinTag,
      Rubintag.from_tag tag "" alias_tags "" none none = .ok rt ∧
        rt.image_type = RubinTagType.ALIAS ∧
        rt.display_name = Rubintag.prettify_tag tag) ∧
    (pyLower tag = tag →
      Rubintagfuncs.parse_tag tag "" alias_tags =
        .ok (RubinTagType.ALIAS, Rubintagfuncs.titlecase tag, none, none)) := by
  constructor
  · obtain ⟨pt, hpt, -⟩ := parse_tag_total tag
    have hft : Rubintag.from_tag tag "" alias_tags "" none none =
        .ok ⟨⟨tag, .ALIAS, Rubintag.prettify_tag tag, pt.semantic_version,
          pt.cycle⟩, "", none⟩ := by
      simp only [Rubintag.from_tag, hpt, except_bind_ok, if_pos hmem]
      rfl
    exact ⟨_, hft, rfl, rfl⟩
  · intro hlow
    simp only [Rubintagfuncs.parse_tag, Rubintagfuncs.parseTagGo, if_neg hne]
    rw [if_neg (show ¬(tag ≠ pyLower tag) from fun hcon => hcon hlow.symm)]
    rw [if_pos hmem]
    rfl

/-- Witness for C7 amended: the weekly-shaped alias tag `w_2021_22` is
classified `ALIAS` by both classifiers. -/
theorem c7_witness :
    (∃ rt : Rubintag.RubinTag,
      Rubintag.from_tag "w_2021_22" "" ["w_2021_22"] "" none none = .ok rt ∧
        rt.image_type = RubinTagType.ALIAS ∧
        rt.display_name = Rubintag.prettify_tag "w_2021_22") ∧
      Rubintagfuncs.parse_tag "w_2021_22" "" ["w_2021_22"] =
        .ok (RubinTagType.ALIAS, "W 2021 22", none, none) := by
  have h := c7_alias_wins "w_2021_22" ["w_2021_22"] (by decide) (by decide)
  refine ⟨h.1, ?_⟩
  rw [h.2 (by decide)]
  decide

end Cachemachine

namespace Cachemachine

theorem except_bind_err {ε α β : Type} (e : ε) (f : α → Except ε β) :
    (Except.error e >>= f : Except ε β) = .error e := rfl

theorem unionTags_mem (t : String) : ∀ (ex b : List String),
    t ∈ unionTags b ex ↔ t ∈ b ∨ t ∈ ex := by
  intro ex
  induction ex with
  | nil => intro b; simp [unionTags]
  | cons x ex ih =>
    intro b
    have hstep : unionTags b (x :: ex) =
        unionTags (if x ∈ b then b else b ++ [x]) ex := rfl
    rw [hstep, ih]
    by_cases hx : x ∈ b
    · rw [if_pos hx]
      simp only [List.mem_cons]
      constructor
      · rintro (h | h)
        exacts [Or.inl h, Or.inr (Or.inr h)]
      · rintro (h | rfl | h)
        exacts [Or.inl h, Or.inl hx, Or.inr h]
    · rw [if_neg hx]
      simp only [List.mem_append, List.mem_singleton, List.mem_cons]
      tauto

theorem tagsFold_mem (t : String) : ∀ (ms : List CachedDockerImage) (b : List String),
    t ∈ ms.foldl (fun acc ni => unionTags acc ni.tags) b ↔
      t ∈ b ∨ ∃ ni, ni ∈ ms ∧ t ∈ ni.tags := by
  intro ms
  induction ms with
  | nil => intro b; simp
  | cons x ms ih =>
    intro b
    rw [List.foldl_cons, ih, unionTags_mem]
    simp only [List.mem_cons]
    constructor
    · rintro ((h | h) | ⟨ni, hni, ht⟩)
      exacts [Or.inl h, Or.inr ⟨x, Or.inl rfl, h⟩, Or.inr ⟨ni, Or.inr hni, ht⟩]
    · rintro (h | ⟨ni, (rfl | hni), ht⟩)
      exacts [Or.inl (Or.inl h), Or.inl (Or.inr ht), Or.inr ⟨ni, hni, ht⟩]

theorem keyOf_eq_iff {a b : CachedDockerImage} :
    keyOf a = keyOf b ↔ a.image_url = b.image_url ∧ a.image_hash = b.image_hash := by
  simp [keyOf, Prod.ext_iff]

theorem interOne_mem_spec {ci im : CachedDockerImage} {imgs : List CachedDockerImage}
    (h : im ∈ intersectOne ci imgs) :
    keyOf im = keyOf ci ∧ HasKey imgs (keyOf ci) ∧
      ∀ t, (t ∈ im.tags ↔
        t ∈ ci.tags ∨ ∃ ni, ni ∈ imgs ∧ keyOf ni = keyOf ci ∧ t ∈ ni.tags) := by
  simp only [intersectOne] at h
  rw [List.mem_replicate] at h
  obtain ⟨hlen, rfl⟩ := h
  refine ⟨rfl, ?_, ?_⟩
  · have hne : imgs.filter (fun ni =>
        ci.image_hash = ni.image_hash ∧ ci.image_url = ni.image_url) ≠ [] := by
      intro hh
      rw [hh] at hlen
      exact hlen rfl
    obtain ⟨ni, hni⟩ := List.exists_mem_of_ne_nil _ hne
    rw [List.mem_filter] at hni
    obtain ⟨hmem, hp⟩ := hni
    have hpq := of_decide_eq_true hp
    exact ⟨ni, hmem, keyOf_eq_iff.mpr ⟨hpq.2.symm, hpq.1.symm⟩⟩
  · intro t
    show t ∈ (imgs.filter (fun ni =>
        ci.image_hash = ni.image_hash ∧ ci.image_url = ni.image_url)).foldl
        (fun acc ni => unionTags acc ni.tags) ci.tags ↔ _
    rw [tagsFold_mem]
    constructor
    · rintro (h | ⟨ni, hni, ht⟩)
      · exact Or.inl h
      · rw [List.mem_filter] at hni
        have hpq := of_decide_eq_true hni.2
        exact Or.inr ⟨ni, hni.1, keyOf_eq_iff.mpr ⟨hpq.2.symm, hpq.1.symm⟩, ht⟩
    · rintro (h | ⟨ni, hni, hk, ht⟩)
      · exact Or.inl h
      · obtain ⟨hu, hh⟩ := keyOf_eq_iff.mp hk
        exact Or.inr ⟨ni, List.mem_filter.mpr
          ⟨hni, decide_eq_true ⟨hh.symm, hu.symm⟩⟩, ht⟩

theorem interOne_ex {ci : CachedDockerImage} {imgs : List CachedDockerImage}
    (h : HasKey imgs (keyOf ci)) : ∃ im, im ∈ intersectOne ci imgs := by
  obtain ⟨ni, hni, hk⟩ := h
  obtain ⟨hu, hh⟩ := keyOf_eq_iff.mp hk
  have hmem : ni ∈ imgs.filter (fun x =>
      ci.image_hash = x.image_hash ∧ ci.image_url = x.image_url) :=
    List.mem_filter.mpr ⟨hni, decide_eq_true ⟨hh.symm, hu.symm⟩⟩
  have hlen : (imgs.filter (fun x =>
      ci.image_hash = x.image_hash ∧ ci.image_url = x.image_url)).length ≠ 0 := by
    intro h0
    rw [List.length_eq_zero] at h0
    rw [h0] at hmem
    cases hmem
  exact ⟨_, by
    simp only [intersectOne]
    exact List.mem_replicate.mpr ⟨hlen, rfl⟩⟩

theorem interCaches_mem_aux {imgs : List CachedDockerImage} {im : CachedDockerImage} :
    ∀ (common acc : List CachedDockerImage),
      (im ∈ common.foldl (fun a ci => a ++ intersectOne ci imgs) acc ↔
        im ∈ acc ∨ ∃ ci, ci ∈ common ∧ im ∈ intersectOne ci imgs) := by
  intro common
  induction common with
  | nil => intro acc; simp
  | cons c cs ih =>
    intro acc
    rw [List.foldl_cons, ih]
    simp only [List.mem_append, List.mem_cons]
    constructor
    · rintro ((h | h) | ⟨ci, hci, hmem⟩)
      exacts [Or.inl h, Or.inr ⟨c, Or.inl rfl, h⟩, Or.inr ⟨ci, Or.inr hci, hmem⟩]
    · rintro (h | ⟨ci, (rfl | hci), hmem⟩)
      exacts [Or.inl (Or.inl h), Or.inl (Or.inr hmem), Or.inr ⟨ci, hci, hmem⟩]

theorem interCaches_mem {common imgs : List CachedDockerImage} {im : CachedDockerImage} :
    im ∈ intersectCaches common imgs ↔
      ∃ ci, ci ∈ common ∧ im ∈ intersectOne ci imgs := by
  unfold intersectCaches
  rw [interCaches_mem_aux]
  simp

theorem tagAt_cons {e : List CachedDockerImage} {es : List (List CachedDockerImage)}
    {k : String × String} {t : String} :
    TagAt (e :: es) k t ↔
      (∃ ni, ni ∈ e ∧ keyOf ni = k ∧ t ∈ ni.tags) ∨ TagAt es k t := by
  constructor
  · rintro ⟨e', he', im, him, hk, ht⟩
    rcases List.mem_cons.mp he' with rfl | h
    · exact Or.inl ⟨im, him, hk, ht⟩
    · exact Or.inr ⟨e', h, im, him, hk, ht⟩
  · rintro (⟨ni, hni, hk, ht⟩ | ⟨e', he', im, him, hk, ht⟩)
    · exact ⟨e, List.mem_cons_self _ _, ni, hni, hk, ht⟩
    · exact ⟨e', List.mem_cons_of_mem _ he', im, him, hk, ht⟩

theorem foldInter_sound : ∀ (es : List (List CachedDockerImage))
    (seed : List CachedDockerImage) (im : CachedDockerImage),
    im ∈ es.foldl intersectCaches seed →
    ∃ ci, ci ∈ seed ∧ keyOf im = keyOf ci ∧
      (∀ e, e ∈ es → HasKey e (keyOf im)) ∧
      (∀ t, t ∈ im.tags ↔ t ∈ ci.tags ∨ TagAt es (keyOf im) t) := by
  intro es
  induction es with
  | nil =>
    intro seed im him
    exact ⟨im, him, rfl, by simp, fun t => by simp [TagAt]⟩
  | cons e es ih =>
    intro seed im him
    rw [List.foldl_cons] at him
    obtain ⟨ci', hci', hkey', hall, htags⟩ := ih (intersectCaches seed e) im him
    obtain ⟨ci, hci, hmem⟩ := interCaches_mem.mp hci'
    obtain ⟨hk2, hhk, htags2⟩ := interOne_mem_spec hmem
    have hkey : keyOf im = keyOf ci := hkey'.trans hk2
    refine ⟨ci, hci, hkey, ?_, ?_⟩
    · intro e' he'
      rcases List.mem_cons.mp he' with rfl | h
      · rw [hkey]
        exact hhk
      · exact hall e' h
    · intro t
      rw [htags t, htags2 t, tagAt_cons, hkey]
      exact or_assoc

theorem foldInter_complete : ∀ (es : List (List CachedDockerImage))
    (seed : List CachedDockerImage) (k : String × String),
    HasKey seed k → (∀ e, e ∈ es → HasKey e k) →
    ∃ im, im ∈ es.foldl intersectCaches seed ∧ keyOf im = k := by
  intro es
  induction es with
  | nil =>
    intro seed k hs _
    obtain ⟨im, him, hk⟩ := hs
    exact ⟨im, him, hk⟩
  | cons e es ih =>
    intro seed k hs hall
    obtain ⟨ci, hci, hk⟩ := hs
    have hke : HasKey e (keyOf ci) := by
      rw [hk]
      exact hall e (List.mem_cons_self _ _)
    obtain ⟨im', hmem⟩ := interOne_ex hke
    have hkey' : keyOf im' = k := ((interOne_mem_spec hmem).1).trans hk
    have hs' : HasKey (intersectCaches seed e) k :=
      ⟨im', interCaches_mem.mpr ⟨ci, hci, hmem⟩, hkey'⟩
    rw [List.foldl_cons]
    exact ih _ k hs' (fun e' he' => hall e' (List.mem_cons_of_mem _ he'))

theorem qualImages_cons_pos (sel : List (String × String)) (n : KubeNode)
    (rest : List KubeNode) (hm : labelsMatch sel n.labels = true) :
    qualImages sel (n :: rest) =
      (do
        let i ← nodeImages n
        let es ← qualImages sel rest
        pure (i :: es)) := by
  unfold qualImages
  rw [List.filter_cons, if_pos hm, List.mapM_cons]

theorem qualImages_cons_neg (sel : List (String × String)) (n : KubeNode)
    (rest : List KubeNode) (hm : labelsMatch sel n.labels = false) :
    qualImages sel (n :: rest) = qualImages sel rest := by
  simp [qualImages, List.filter_cons, hm]

theorem inspectGo_false_eq (sel : List (String × String)) :
    ∀ (nodes : List KubeNode) (common : List CachedDockerImage),
      inspectGo sel false common nodes =
        Except.map (fun es => es.foldl intersectCaches common)
          (qualImages sel nodes) := by
  intro nodes
  induction nodes with
  | nil => intro common; rfl
  | cons n rest ih =>
    intro common
    by_cases hm : labelsMatch sel n.labels
    · rw [qualImages_cons_pos sel n rest hm]
      simp only [inspectGo, if_pos hm]
      cases hni : nodeImages n with
      | error e => rfl
      | ok imgs =>
        show inspectGo sel false (intersectCaches common imgs) rest = _
        rw [ih (intersectCaches common imgs)]
        cases hq : qualImages sel rest with
        | error e => rfl
        | ok es => rfl
    · rw [qualImages_cons_neg sel n rest (Bool.eq_false_iff.mpr hm)]
      simp only [inspectGo, if_neg hm]
      exact ih common

theorem inspect_node_caches_eq (sel : List (String × String)) :
    ∀ nodes : List KubeNode,
      inspect_node_caches sel nodes =
        Except.map interFold (qualImages sel nodes) := by
  have main : ∀ nodes : List KubeNode,
      inspectGo sel true [] nodes = Except.map interFold (qualImages sel nodes) := by
    intro nodes
    induction nodes with
    | nil => rfl
    | cons n rest ih =>
      by_cases hm : labelsMatch sel n.labels
      · rw [qualImages_cons_pos sel n rest hm]
        simp only [inspectGo, if_pos hm]
        cases hni : nodeImages n with
        | error e => rfl
        | ok imgs =>
          simp only [if_true]
          rw [inspectGo_false_eq sel rest imgs]
          cases hq : qualImages sel rest with
          | error e => rfl
          | ok es => rfl
      · rw [qualImages_cons_neg sel n rest (Bool.eq_false_iff.mpr hm)]
        simp only [inspectGo, if_neg hm]
        exact ih
  intro nodes
  exact main nodes

end Cachemachine

namespace Cachemachine

/-- C1: the common cache computed by `inspect_node_caches` is exactly the
intersection of the per-node emitted caches over the nodes matching the label
selector, keyed by `(imageURL, digest)`, with tag sets unioned across nodes;
zero qualifying nodes give the empty cache.  Precisely: if the qualifying
nodes emit the per-node lists `es` (each listing a key at most once) and the
call returns `r`, then (i) `r` is empty when no node qualifies, (ii) every
image in `r` carries a key present in every per-node list and exactly the
tags some qualifying node attached to that key, and (iii) every key common to
all per-node lists is represented in `r`. -/
theorem c1_common_cache_is_intersection (sel : List (String × String))
    (nodes : List KubeNode) (r : List CachedDockerImage)
    (es : List (List CachedDockerImage))
    (hq : qualImages sel nodes = .ok es)
    (hr : inspect_node_caches sel nodes = .ok r)
    (hnd : ∀ e, e ∈ es → KeysNodup e) :
    (es = [] → r = []) ∧
    (∀ im, im ∈ r →
      (∀ e, e ∈ es → HasKey e (keyOf im)) ∧
      (∀ t, t ∈ im.tags ↔ TagAt es (keyOf im) t)) ∧
    (∀ k, es ≠ [] → (∀ e, e ∈ es → HasKey e k) →
      ∃ im, im ∈ r ∧ keyOf im = k) := by
  have hb := inspect_node_caches_eq sel nodes
  rw [hq, hr] at hb
  have hre : r = interFold es := Except.ok.inj hb
  subst hre
  cases es with
  | nil =>
    refine ⟨fun _ => rfl, ?_, ?_⟩
    · intro im him
      simp [interFold] at him
    · intro k hne _
      exact absurd rfl hne
  | cons e0 rest =>
    refine ⟨fun h => (List.cons_ne_nil _ _ h).elim, ?_, ?_⟩
    · intro im him
      have him' : im ∈ rest.foldl intersectCaches e0 := him
      obtain ⟨ci, hci, hkey, hall, htags⟩ := foldInter_sound rest e0 im him'
      constructor
      · intro e he
        rcases List.mem_cons.mp he with rfl | h
        · exact ⟨ci, hci, hkey.symm⟩
        · exact hall e h
      · intro t
        rw [htags t, tagAt_cons]
        have hinj := List.inj_on_of_nodup_map (hnd e0 (List.mem_cons_self _ _))
        constructor
        · rintro (h | h)
          · exact Or.inl ⟨ci, hci, hkey.symm, h⟩
          · exact Or.inr h
        · rintro (⟨ni, hni, hk, ht⟩ | h)
          · have hni_ci : ni = ci := hinj hni hci (hk.trans hkey)
            exact Or.inl (hni_ci ▸ ht)
          · exact Or.inr h
    · intro k _ hall
      exact foldInter_complete rest e0 k (hall e0 (List.mem_cons_self _ _))
        (fun e he => hall e (List.mem_cons_of_mem _ he))

/-- Witness for C1 on two qualifying worker nodes sharing `repo:b@sha256:h1`
(with different extra tags) and one non-qualifying gpu node: the common key
is represented in the computed common cache. -/
theorem c1_witness :
    ∃ im, im ∈ [(⟨"repo:b", "sha256:h1", ["a", "c"]⟩ : CachedDockerImage)] ∧
      keyOf im = ("repo:b", "sha256:h1") := by
  have h := c1_common_cache_is_intersection [("kind", "worker")]
    [⟨[("kind", "worker")],
        [⟨["repo@sha256:h1", "repo:a", "repo:b", "other@sha256:h2", "other:x"]⟩]⟩,
      ⟨[("kind", "worker"), ("extra", "1")],
        [⟨["repo@sha256:h1", "repo:b", "repo:c"]⟩]⟩,
      ⟨[("kind", "gpu")], [⟨["solo@sha256:h3", "solo:z"]⟩]⟩]
    [⟨"repo:b", "sha256:h1", ["a", "c"]⟩]
    [[⟨"repo:a", "sha256:h1", ["b"]⟩, ⟨"repo:b", "sha256:h1", ["a"]⟩,
      ⟨"other:x", "sha256:h2", []⟩],
     [⟨"repo:b", "sha256:h1", ["c"]⟩, ⟨"repo:c", "sha256:h1", ["b"]⟩]]
    (by decide) (by decide)
    (by
      intro e he
      simp only [List.mem_cons, List.not_mem_nil, or_false] at he
      unfold KeysNodup
      rcases he with rfl | rfl
      · decide
      · decide)
  refine h.2.2 ("repo:b", "sha256:h1") (by decide) ?_
  intro e he
  simp only [List.mem_cons, List.not_mem_nil, or_false] at he
  rcases he with rfl | rfl
  · exact ⟨⟨"repo:b", "sha256:h1", ["a"]⟩, by decide, rfl⟩
  · exact ⟨⟨"repo:b", "sha256:h1", ["c"]⟩, by decide, rfl⟩

end Cachemachine

namespace Cachemachine

theorem pySplitAux_digits {cs : List Char} (h : cs.all Char.isDigit = true) :
    pySplitAux '.' cs = [cs] := by
  induction cs with
  | nil => rfl
  | cons c cs ih =>
    simp only [List.all_cons, Bool.and_eq_true] at h
    have hc : ¬ (c = '.') := fun he => absurd (he ▸ h.1) (by decide)
    simp only [pySplitAux, if_neg hc, ih h.2]

theorem pyIntOfFloat?_digit {s : String} (h : DigitStr s) :
    pyIntOfFloat? s = some ((digitsToNat s.data : Int)) := by
  unfold pyIntOfFloat? pySplit1
  rw [pySplitAux_digits h.2]
  exact pyInt?_digit h

theorem pySplitAux_dotted {xs ys : List Char} (hx : xs.all Char.isDigit = true)
    (hy : ys.all Char.isDigit = true) :
    pySplitAux '.' (xs ++ '.' :: ys) = [xs, ys] := by
  induction xs with
  | nil =>
    simp only [List.nil_append, pySplitAux, pySplitAux_digits hy]
    rw [if_pos trivial]
  | cons c cs ih =>
    simp only [List.all_cons, Bool.and_eq_true] at hx
    have hc : ¬ (c = '.') := fun he => absurd (he ▸ hx.1) (by decide)
    have hrec : pySplitAux '.' (cs.append ('.' :: ys)) = [cs, ys] := ih hx.2
    simp only [List.cons_append, pySplitAux, if_neg hc]
    rw [hrec]

theorem pyIntOfFloat?_dotted {a b : String} (ha : DigitStr a) (hb : DigitStr b) :
    pyIntOfFloat? (a ++ "." ++ b) = some ((digitsToNat a.data : Int)) := by
  unfold pyIntOfFloat? pySplit1
  have hdata : (a ++ "." ++ b).data = a.data ++ '.' :: b.data := by
    simp [String.data_append]
  rw [hdata, pySplitAux_dotted ha.2 hb.2]
  show (if (String.mk b.data).data ≠ [] ∧
      (String.mk b.data).data.all Char.isDigit = true then
      pyInt? (String.mk a.data) else none) = some ((digitsToNat a.data : Int))
  rw [if_pos ⟨hb.1, hb.2⟩]
  exact pyInt?_digit ha

theorem toB_fields (g : Groups) :
    (toB g).major = g.major ∧ (toB g).minor = g.minor ∧ (toB g).patch = g.patch ∧
    (toB g).year = g.year ∧ (toB g).week = g.week ∧ (toB g).month = g.month ∧
    (toB g).day = g.day ∧ (toB g).pre = g.pre ∧ (toB g).rest = g.rest := by
  unfold toB
  split
  · exact ⟨rfl, rfl, rfl, rfl, rfl, rfl, rfl, rfl, rfl⟩
  · exact ⟨rfl, rfl, rfl, rfl, rfl, rfl, rfl, rfl, rfl⟩

theorem toB_fgroups {g : Groups} (hd : DigitGroups g) : FDigitGroups (toB g) := by
  obtain ⟨hma, hmi, hpa, hyr, hwk, hmo, hdy, hcy, hcb⟩ := hd
  obtain ⟨f1, f2, f3, f4, f5, f6, f7, -, -⟩ := toB_fields g
  refine ⟨?_, ?_, ?_, ?_, ?_, ?_, ?_, ?_⟩
  · rw [f1]; exact hma
  · rw [f2]; exact hmi
  · rw [f3]; exact hpa
  · rw [f4]; exact hyr
  · rw [f5]; exact hwk
  · rw [f6]; exact hmo
  · rw [f7]; exact hdy
  · intro s hs
    unfold toB at hs
    split at hs
    case _ cy cb hcyeq hcbeq =>
      have hs' : some (cy ++ "." ++ cb) = some s := hs
      obtain rfl := Option.some.inj hs'
      exact ⟨_, pyIntOfFloat?_dotted (hcy cy hcyeq) (hcb cb hcbeq)⟩
    case _ =>
      exact ⟨_, pyIntOfFloat?_digit (hcy s hs)⟩

theorem findTagMatch_map (t : String) :
    ∀ table : List (RubinTagType × (String → Option Groups)),
      findTagMatch (table.map (fun p => (p.1, fun u => (p.2 u).map toB))) t =
        (findTagMatch table t).map (fun p => (p.1, toB p.2)) := by
  intro table
  induction table with
  | nil => rfl
  | cons e rest ih =>
    rcases e with ⟨ty, m⟩
    cases hm : m t with
    | none =>
      simp only [List.map_cons, findTagMatch, hm, Option.map_none']
      exact ih
    | some g =>
      simp only [List.map_cons, findTagMatch, hm, Option.map_some']

theorem tagtypeMatchF_eq (t : String) :
    tagtypeMatchF t = (tagtypeMatch t).map (fun p => (p.1, toB p.2)) := by
  unfold tagtypeMatchF tagtypeMatch TAGTYPE_REGEXPS_F
  exact findTagMatch_map t TAGTYPE_REGEXPS

theorem fmaybe_int_digit_ok {o : Option String} (h : DigitOpt o) :
    ∃ v, Rubintagfuncs.maybe_int o = .ok v := by
  cases o with
  | none => exact ⟨none, rfl⟩
  | some s =>
    refine ⟨some ((digitsToNat s.data : Int)), ?_⟩
    simp [Rubintagfuncs.maybe_int, pyIntOfFloat?_digit (h s rfl)]

theorem fmaybe_int_patch_ok {o : Option String} (h : DigitOpt o) :
    ∃ v, Rubintagfuncs.maybe_int (some (o.getD "0")) = .ok v := by
  cases o with
  | none => exact ⟨some 0, by decide⟩
  | some s =>
    refine ⟨some ((digitsToNat s.data : Int)), ?_⟩
    simp [Rubintagfuncs.maybe_int, Option.getD, pyIntOfFloat?_digit (h s rfl)]

theorem fmaybe_int_float_ok {o : Option String} (h : FloatOpt o) :
    ∃ v, Rubintagfuncs.maybe_int o = .ok v := by
  cases o with
  | none => exact ⟨none, rfl⟩
  | some s =>
    obtain ⟨i, hi⟩ := h s rfl
    exact ⟨some i, by simp [Rubintagfuncs.maybe_int, hi]⟩

end Cachemachine

namespace Cachemachine

set_option maxHeartbeats 1600000 in
theorem extract_metadata_okF (rec : String → Except PyErr Rubintagfuncs.ParsedTag)
    (g : Groups) (tag : String) (ty : RubinTagType)
    (hd : FDigitGroups g) (hty : ty ≠ RubinTagType.EXPERIMENTAL) :
    ∃ out, Rubintagfuncs.extract_metadata rec g tag ty = .ok out := by
  obtain ⟨hma, hmi, hpa, hyr, hwk, hmo, hdy, hcy⟩ := hd
  obtain ⟨vma, ema⟩ := fmaybe_int_digit_ok hma
  obtain ⟨vmi, emi⟩ := fmaybe_int_digit_ok hmi
  obtain ⟨vpa, epa⟩ := fmaybe_int_patch_ok hpa
  obtain ⟨vyr, eyr⟩ := fmaybe_int_digit_ok hyr
  obtain ⟨vwk, ewk⟩ := fmaybe_int_digit_ok hwk
  obtain ⟨vmo, emo⟩ := fmaybe_int_digit_ok hmo
  obtain ⟨vdy, edy⟩ := fmaybe_int_digit_ok hdy
  obtain ⟨vcy, ecy⟩ := fmaybe_int_float_ok hcy
  cases ty with
  | EXPERIMENTAL => exact absurd rfl hty
  | UNKNOWN => exact ⟨_, rfl⟩
  | ALIAS => exact ⟨_, rfl⟩
  | RELEASE =>
    simp only [Rubintagfuncs.extract_metadata, ema, emi, epa, ecy, except_bind_ok]
    split_ifs <;> try exact ⟨_, rfl⟩
    all_goals tauto
  | RELEASE_CANDIDATE =>
    simp only [Rubintagfuncs.extract_metadata, ema, emi, epa, ecy, except_bind_ok]
    split_ifs <;> try exact ⟨_, rfl⟩
    all_goals tauto
  | WEEKLY =>
    simp only [Rubintagfuncs.extract_metadata, eyr, ewk, ecy, except_bind_ok]
    split_ifs <;> try exact ⟨_, rfl⟩
    all_goals tauto
  | DAILY =>
    simp only [Rubintagfuncs.extract_metadata, eyr, emo, edy, ecy, except_bind_ok]
    split_ifs <;> try exact ⟨_, rfl⟩
    all_goals tauto

end Cachemachine

namespace Cachemachine

/-- Totality of the `rubintagfuncs.py` parser: the recursion bound is never
hit and no `int(float(.))` conversion fails, for any fuel exceeding the tag
length. -/
theorem parseTagGoF_total (fuel : Nat) : ∀ (tag ov : String) (al : List String),
    tag.length < fuel →
    ∃ r, Rubintagfuncs.parseTagGo fuel tag ov al = .ok r := by
  induction fuel with
  | zero => intro tag ov al h; omega
  | succ fuel ih =>
    intro tag ov al hlen
    by_cases h0 : tag = ""
    · subst h0
      simp only [Rubintagfuncs.parseTagGo, eq_self_iff_true, if_true]
      rw [if_neg (by decide : ¬ (DOCKER_DEFAULT_TAG ≠ pyLower DOCKER_DEFAULT_TAG))]
      by_cases hal : DOCKER_DEFAULT_TAG ∈ al
      · rw [if_pos hal]
        exact ⟨_, rfl⟩
      · rw [if_neg hal]
        have hnone : tagtypeMatchF DOCKER_DEFAULT_TAG = none := by decide
        rw [hnone]
        exact ⟨_, rfl⟩
    · simp only [Rubintagfuncs.parseTagGo]
      rw [if_neg h0]
      by_cases hlow : tag ≠ pyLower tag
      · rw [if_pos hlow]
        exact ⟨_, rfl⟩
      · rw [if_neg hlow]
        by_cases hal : tag ∈ al
        · rw [if_pos hal]
          exact ⟨_, rfl⟩
        · rw [if_neg hal]
          cases hm : tagtypeMatchF tag with
          | none => exact ⟨_, rfl⟩
          | some p =>
            rcases p with ⟨ty, g'⟩
            have heq := tagtypeMatchF_eq tag
            rw [hm] at heq
            cases hm0 : tagtypeMatch tag with
            | none =>
              rw [hm0] at heq
              cases heq
            | some p0 =>
              rcases p0 with ⟨ty0, g⟩
              rw [hm0, Option.map_some'] at heq
              simp only [Option.some.injEq, Prod.mk.injEq] at heq
              obtain ⟨rfl, rfl⟩ := heq
              obtain ⟨hd, hexp⟩ := tagtypeMatch_spec hm0
              by_cases hty : ty = RubinTagType.EXPERIMENTAL
              · subst hty
                obtain ⟨r, hrest, hdata⟩ := hexp rfl
                obtain ⟨-, -, -, -, -, -, -, -, f9⟩ := toB_fields g
                have hrlen : r.length < fuel := by
                  have hc := congrArg List.length hdata
                  simp only [List.length_cons] at hc
                  have hsl : tag.length = tag.data.length := rfl
                  have hsr : r.length = r.data.length := rfl
                  omega
                obtain ⟨rr, hrr⟩ := ih r "" [] hrlen
                rcases rr with ⟨rty, rname, rsv, rcy⟩
                have hfr : (toB g).rest = some r := f9.trans hrest
                have hex : Rubintagfuncs.extract_metadata
                    (fun u => Rubintagfuncs.parseTagGo fuel u "" []) (toB g) tag
                    RubinTagType.EXPERIMENTAL =
                      .ok ("Experimental " ++ rname, none, none) := by
                  simp only [Rubintagfuncs.extract_metadata, hfr, hrr, except_bind_ok]
                simp only [hex]
                exact ⟨_, rfl⟩
              · obtain ⟨out, hout⟩ := extract_metadata_okF
                  (fun u => Rubintagfuncs.parseTagGo fuel u "" []) (toB g) tag ty
                  (toB_fgroups hd) hty
                rcases out with ⟨name, sv, cy⟩
                simp only [hout]
                exact ⟨_, rfl⟩

end Cachemachine

namespace Cachemachine

/-- C8: parsing is total in both classifiers.  `RubinPartialTag.parse_tag`
returns a classified tag for every string (UNKNOWN in the worst case), an
empty string is parsed as the registry default tag `latest`, and a string
matching no grammar rule keeps kind `UNKNOWN` with itself as display name;
`rubintagfuncs.parse_tag` likewise never raises, for any override name and
alias set. -/
theorem c8_parse_is_total (s : String) :
    (∃ r : RubinPartialTag, Rubintag.parse_tag s = .ok r ∧
      r.tag = (if s = "" then DOCKER_DEFAULT_TAG else s) ∧
      (tagtypeMatch (if s = "" then DOCKER_DEFAULT_TAG else s) = none →
        r = ⟨if s = "" then DOCKER_DEFAULT_TAG else s, .UNKNOWN,
          if s = "" then DOCKER_DEFAULT_TAG else s, none, none⟩)) ∧
    (∀ (ov : String) (al : List String),
      ∃ pr, Rubintagfuncs.parse_tag s ov al = .ok pr) := by
  constructor
  · obtain ⟨r, hr, htag⟩ := parse_tag_total s
    refine ⟨r, hr, htag, ?_⟩
    intro hnone
    have hthis : Rubintag.parse_tag s =
        .ok ⟨if s = "" then DOCKER_DEFAULT_TAG else s, .UNKNOWN,
          if s = "" then DOCKER_DEFAULT_TAG else s, none, none⟩ := by
      simp only [Rubintag.parse_tag, Rubintag.parseTagGo, hnone]
    exact Except.ok.inj (hr.symm.trans hthis)
  · intro ov al
    exact parseTagGoF_total (s.length + 1) s ov al (Nat.lt_succ_self _)

/-- Witness for C8 at the spec's unclassifiable example tag. -/
theorem c8_witness :
    Rubintag.parse_tag "not_a_normal_format" =
      .ok ⟨"not_a_normal_format", .UNKNOWN, "not_a_normal_format",
        none, none⟩ := by
  obtain ⟨⟨r, hr, -, hu⟩, -⟩ := c8_parse_is_total "not_a_normal_format"
  rw [hr, hu (by decide)]
  rfl

end Cachemachine
